import Mathlib

/-!
# Verification of the Math-MinimizerOptimizer module

Shallow embedding of the QR decomposition engine (`src/headers/decomposition/QR.h`)
and of the constraint-residual hierarchy (`src/headers/ErrorFunctions.h`) of the
OurPaintTeam Math-MinimizerOptimizer repository, together with proofs and
refutations of the specification's claims about them.

The dense matrix type (`Matrix<>` of `Matrix.h`) and the expression-node type
(`Function` of `Function.h`) are collaborators whose sources are not part of the
inspected tree; they are modelled from the specification's interface description
(shape query, element get/set, column get/set, transpose, multiply, addition,
identity, inverse; expression nodes with evaluation and symbolic differentiation).
Floating-point `double` arithmetic is modelled by exact real arithmetic.
-/

noncomputable section

open Finset

/-- Ascending counted loop: `forLoop f n a` performs `f 0`, then `f 1`, …,
then `f (n-1)`, starting from `a`.  This mirrors the C++ pattern
`for (size_t i = 0; i < n; ++i) body(i)` acting on mutable state. -/
def forLoop {α : Type} (f : ℕ → α → α) : ℕ → α → α
  | 0, a => a
  | n + 1, a => f n (forLoop f n a)

/-- Dot product of the first `m` coordinates of two coordinate functions;
mirrors the accumulation loops `for (k = 0; k < m; ++k) acc += u[k]*v[k]`. -/
def dot (m : ℕ) (u v : ℕ → ℝ) : ℝ := ∑ k in range m, u k * v k

/-- Modelled from the spec: the dense `Matrix<>` collaborator — a rows × cols
grid of doubles with value semantics.  Entries are stored as a total function;
the constructor `Matrix<>(m, n)` produces a zero-filled grid (the spec relies on
fresh `Q` columns being "the zero vector"), so out-of-range entries are 0 for
every matrix the embedded code constructs. -/
structure Mat where
  rows : ℕ
  cols : ℕ
  entry : ℕ → ℕ → ℝ

/-- Modelled from the spec: `Matrix<>(m, n)`, zero-initialized. -/
def Mat.mk0 (m n : ℕ) : Mat := ⟨m, n, fun _ _ => 0⟩

/-- Modelled from the spec: element write `M(i, j) = x`. -/
def Mat.set (M : Mat) (i j : ℕ) (x : ℝ) : Mat :=
  ⟨M.rows, M.cols, fun a b => if a = i ∧ b = j then x else M.entry a b⟩

/-- Modelled from the spec: `getCol(j)`, the j-th column as a coordinate
function of length `rows`. -/
def Mat.getCol (M : Mat) (j : ℕ) : ℕ → ℝ := fun k => M.entry k j

/-- Modelled from the spec: `setCol(v, j)` writes the `rows` coordinates of
`v` into column `j`. -/
def Mat.setCol (M : Mat) (v : ℕ → ℝ) (j : ℕ) : Mat :=
  ⟨M.rows, M.cols, fun a b => if b = j ∧ a < M.rows then v a else M.entry a b⟩

/-- Modelled from the spec: `transpose()`. -/
def Mat.transpose (M : Mat) : Mat := ⟨M.cols, M.rows, fun a b => M.entry b a⟩

/-- Modelled from the spec: matrix product. -/
def Mat.mul (M N : Mat) : Mat :=
  ⟨M.rows, N.cols, fun i j => ∑ k in range M.cols, M.entry i k * N.entry k j⟩

/-- Modelled from the spec: matrix addition (same-shape use only). -/
def Mat.add (M N : Mat) : Mat :=
  ⟨M.rows, M.cols, fun i j => M.entry i j + N.entry i j⟩

/-- Modelled from the spec: scalar multiple `M * c`. -/
def Mat.smul (M : Mat) (c : ℝ) : Mat :=
  ⟨M.rows, M.cols, fun i j => M.entry i j * c⟩

/-- Modelled from the spec: `identity(n)`. -/
def Mat.identity (n : ℕ) : Mat :=
  ⟨n, n, fun i j => if i = j ∧ i < n then 1 else 0⟩

instance : HMul Mat Mat Mat := ⟨Mat.mul⟩

instance : HAdd Mat Mat Mat := ⟨Mat.add⟩

instance : HMul Mat ℝ Mat := ⟨Mat.smul⟩

/-- The C++ exception classes thrown by the embedded code.  `QR.h` and
`ErrorFunctions.h` throw only `std::runtime_error`; `std::invalid_argument`
is included so that claims about the class of a thrown error are statable. -/
inductive CppError where
  | runtimeError (msg : String) : CppError
  | invalidArgument (msg : String) : CppError
deriving DecidableEq

/-- The `QR` class: members `_A`, `_Q`, `_R` (`QR.h`, lines 12-17). -/
structure QR where
  _A : Mat
  _Q : Mat
  _R : Mat

/-- Accessor `QR::A()` (`QR.h`, line 267). -/
def QR.A (s : QR) : Mat := s._A

/-- Accessor `QR::Q()` (`QR.h`, line 271). -/
def QR.Q (s : QR) : Mat := s._Q

/-- Accessor `QR::R()` (`QR.h`, line 275). -/
def QR.R (s : QR) : Mat := s._R

/-- Constructor `QR::QR(const Matrix<>&)` (`QR.h`, lines 65-70): rejects a
matrix with zero rows or zero columns by throwing
`std::runtime_error("Matrix should be: rows > 0 && cols > 0")`; otherwise
stores the matrix, with `_Q` and `_R` starting empty (default `Matrix<>`). -/
def QR.mkQR (M : Mat) : Except CppError QR :=
  if M.rows < 1 ∨ M.cols < 1 then
    .error (.runtimeError ("Matrix should be: rows > 0 && cols > 0"))
  else
    .ok ⟨M, Mat.mk0 0 0, Mat.mk0 0 0⟩

/-- Inner-loop body of classical Gram-Schmidt (`QR::qrCGS`, `QR.h` lines
117-130): for column index `j`, read `e_j = Q.getCol(j)`, accumulate
`proj_scalar = Σ_k v_i[k] * e_j[k]` from the ORIGINAL column `v`, store it
into `R(j, i)`, and subtract `proj_scalar * e_j` from the running residual. -/
def cgsInnerStep (m : ℕ) (Qm : Mat) (v : ℕ → ℝ) (i j : ℕ)
    (ur : (ℕ → ℝ) × Mat) : (ℕ → ℝ) × Mat :=
  let e := Qm.getCol j
  let proj := dot m v e
  (fun k => ur.1 k - proj * e k, ur.2.set j i proj)

/-- The inner loop `for (j = 0; j < min_mn && j < i; ++j)` of `QR::qrCGS`,
acting on the pair (residual vector `u_i`, matrix `R`). -/
def cgsInner (m mn : ℕ) (Qm : Mat) (v : ℕ → ℝ) (i : ℕ) (Rm : Mat) :
    (ℕ → ℝ) × Mat :=
  forLoop (cgsInnerStep m Qm v i) (min mn i) (v, Rm)

/-- One iteration of the outer loop of `QR::qrCGS` (`QR.h` lines 113-153),
processing column `i`: run the projection loop, then, when `i < min_mn`,
compute the residual norm; if it exceeds 1e-10 set `R(i,i)` to the norm and
write the normalized residual into `Q`'s column `i`, else set `R(i,i) = 0`. -/
def cgsStep (Am : Mat) (mn i : ℕ) (s : Mat × Mat) : Mat × Mat :=
  let m := Am.rows
  let v := Am.getCol i
  let ur := cgsInner m mn s.1 v i s.2
  if i < mn then
    let normVec := Real.sqrt (dot m ur.1 ur.1)
    if 1e-10 < normVec then
      (s.1.setCol (fun k => ur.1 k / normVec) i, ur.2.set i i normVec)
    else
      (s.1, ur.2.set i i 0)
  else
    (s.1, ur.2)

/-- The state of `QR::qrCGS` after its outer loop has processed the first `t`
columns, starting from the freshly constructed `_Q` (m × min(m,n)) and `_R`
(min(m,n) × n) zero matrices. -/
def cgsIter (Am : Mat) (t : ℕ) : Mat × Mat :=
  forLoop (cgsStep Am (min Am.rows Am.cols)) t
    (Mat.mk0 Am.rows (min Am.rows Am.cols), Mat.mk0 (min Am.rows Am.cols) Am.cols)

/-- Method `QR::qrCGS` (`QR.h`, lines 105-154; the source spells the method name with
a Cyrillic letter С): classical Gram-Schmidt, writing the `_Q` and `_R`
members and leaving `_A` untouched. -/
def qrCGS (s : QR) : QR :=
  let p := cgsIter s._A s._A.cols
  ⟨s._A, p.1, p.2⟩

/-- The residual vector `u_i` held by `QR::qrCGS` after the projection loop of
column `i` (`QR.h`, lines 114-130), expressed through the embedded loop state. -/
def cgsU (Am : Mat) (i : ℕ) : ℕ → ℝ :=
  (cgsInner Am.rows (min Am.rows Am.cols) (cgsIter Am i).1 (Am.getCol i) i (cgsIter Am i).2).1

/-- The residual norm `normVec` computed by `QR::qrCGS` while processing
column `i` (`QR.h`, lines 133-137). -/
def cgsNorm (Am : Mat) (i : ℕ) : ℝ :=
  Real.sqrt (dot Am.rows (cgsU Am i) (cgsU Am i))

/-- Method `QR::qr()` (`QR.h`, lines 74-77) delegates to classical Gram-Schmidt. -/
def qr (s : QR) : QR := qrCGS s

/-- The square `Fin`-indexed view of a `Mat`, used to define inversion. -/
def Mat.toSq (M : Mat) : Matrix (Fin M.rows) (Fin M.rows) ℝ :=
  Matrix.of fun i j => M.entry i j

/-- Modelled from the spec: `Matrix<>::inverse()` — defined on square
nonsingular matrices, "fails on singular" (and on non-square) input, the
failure propagating as an error. -/
def Mat.inverse (M : Mat) : Except CppError Mat :=
  letI := Classical.propDecidable (M.rows = M.cols ∧ IsUnit M.toSq.det)
  if M.rows = M.cols ∧ IsUnit M.toSq.det then
    .ok ⟨M.rows, M.rows, fun i j =>
      if h : i < M.rows ∧ j < M.rows then M.toSq⁻¹ ⟨i, h.1⟩ ⟨j, h.2⟩ else 0⟩
  else
    .error (.runtimeError ("Matrix inverse requires a square nonsingular matrix"))

/-- Body of the inner loop `for (k = j+1; k < n; ++k)` of `QR::qrMGS`
(`QR.h`, lines 192-204): store `R(j, k) = qᵀ · V[k]` and update
`V[k] -= R(j, k) * q`. -/
def mgsInnerStep (m : ℕ) (q : ℕ → ℝ) (j k : ℕ)
    (s : Mat × (ℕ → ℕ → ℝ)) : Mat × (ℕ → ℕ → ℝ) :=
  let d := dot m q (s.2 k)
  (s.1.set j k d, fun k' => if k' = k then fun l => s.2 k' l - d * q l else s.2 k')

/-- One iteration of the outer loop of `QR::qrMGS` (`QR.h`, lines 173-214),
processing index `j`: write `R(j,j) = ‖V[j]‖` unconditionally; if the norm
exceeds 1e-10, normalize into `Q`'s column `j` and update every later `V[k]`,
else write a zero column into `Q` and zero the rest of row `j` of `R`. -/
def mgsStep (m n : ℕ) (j : ℕ)
    (s : (Mat × Mat) × (ℕ → ℕ → ℝ)) : (Mat × Mat) × (ℕ → ℕ → ℝ) :=
  let normVec := Real.sqrt (dot m (s.2 j) (s.2 j))
  let R1 := s.1.2.set j j normVec
  if 1e-10 < normVec then
    let q := fun l => s.2 j l / normVec
    let p := forLoop (fun t => mgsInnerStep m q j (j + 1 + t)) (n - (j + 1)) (R1, s.2)
    ((s.1.1.setCol q j, p.1), p.2)
  else
    let R2 := forLoop (fun t (Rm : Mat) => Rm.set j (j + 1 + t) 0) (n - (j + 1)) R1
    ((s.1.1.setCol (fun _ => 0) j, R2), s.2)

/-- The state of `QR::qrMGS` after `t` iterations of its outer loop, starting
from zero `_Q`, `_R` and from `V` initialized with the columns of `A`. -/
def mgsIter (Am : Mat) (t : ℕ) : (Mat × Mat) × (ℕ → ℕ → ℝ) :=
  forLoop (mgsStep Am.rows Am.cols) t
    ((Mat.mk0 Am.rows (min Am.rows Am.cols), Mat.mk0 (min Am.rows Am.cols) Am.cols),
      fun i => Am.getCol i)

/-- Method `QR::qrMGS` (`QR.h`, lines 156-215): modified Gram-Schmidt, running
`min(m, n)` outer iterations and writing the `_Q` and `_R` members. -/
def qrMGS (s : QR) : QR :=
  let p := mgsIter s._A (min s._A.rows s._A.cols)
  ⟨s._A, p.1.1, p.1.2⟩

/-- The norm `normVec = ‖V[j]‖` computed by `QR::qrMGS` at outer iteration
`j` (`QR.h`, lines 175-179), expressed through the embedded loop state. -/
def mgsNorm (Am : Mat) (j : ℕ) : ℝ :=
  Real.sqrt (dot Am.rows ((mgsIter Am j).2 j) ((mgsIter Am j).2 j))

/-- Method `QR::qrIGS` (`QR.h`, lines 218-220): the body is empty, so the method is
a silent no-op on the object's state. -/
def qrIGS (s : QR) : QR := s

/-- Method `QR::qrBGS` (`QR.h`, lines 222-224): empty body, silent no-op. -/
def qrBGS (s : QR) : QR := s

/-- Method `QR::qrRGS` (`QR.h`, lines 226-228): empty body, silent no-op. -/
def qrRGS (s : QR) : QR := s

/-- Method `QR::qrCGSP` (`QR.h`, lines 230-232): empty body, silent no-op. -/
def qrCGSP (s : QR) : QR := s

/-- Method `QR::qrHouseholder` (`QR.h`, lines 234-236): empty body, silent no-op. -/
def qrHouseholder (s : QR) : QR := s

/-- Method `QR::qrGivens` (`QR.h`, lines 238-240): empty body, silent no-op. -/
def qrGivens (s : QR) : QR := s

/-- Method `QR::solve` (`QR.h`, lines 242-250).  The source computes
`Qt_b = Q().transpose() * b` and then evaluates
`Matrix<> x = (R().inverse(), Qt_b);` — a C++ comma expression: the inverse of
`R` is computed (its failure would propagate) and its value DISCARDED, and `x`
is simply `Qt_b`.  No back-substitution takes place. -/
def QR.solve (s : QR) (b : Mat) : Except CppError Mat :=
  let Qt_b := s.Q.transpose * b
  (s.R.inverse).map fun _ => Qt_b

/-- Method `QR::pseudoInverse` (`QR.h`, lines 252-265): regularize `_R` by adding
`identity(_R.rows) * 1e-8`, invert, and return `R⁻¹ * _Qᵀ`.  The diagnostic
`std::cout` printing of `_R` in the source is a side effect outside the
value-level contract and is not modelled. -/
def QR.pseudoInverse (s : QR) : Except CppError Mat :=
  let Rreg := s._R + Mat.identity s._R.rows * (1e-8 : ℝ)
  (Rreg.inverse).map fun Rinv => Rinv * s._Q.transpose

/-- The loop invariant of `QR::qrCGS` after `t` outer iterations, valid while
every processed column's residual norm exceeded the 1e-10 tolerance:
(1) untouched entries of `Q` are zero, (2) the processed columns of `Q` are
orthonormal, (3) each processed column of `A` equals the corresponding
combination `Σ R(j,i)·Q(:,j)`, and (4) the unwritten entries of `R` are zero
(in particular `R` is upper triangular). -/
def CgsInv (Am : Mat) (t : ℕ) : Prop :=
  (∀ k j, Am.rows ≤ k ∨ t ≤ j → (cgsIter Am t).1.entry k j = 0)
  ∧ (∀ j < t, ∀ j' < t, dot Am.rows ((cgsIter Am t).1.getCol j) ((cgsIter Am t).1.getCol j')
      = if j = j' then 1 else 0)
  ∧ (∀ i < t, ∀ k < Am.rows, Am.entry k i
      = ∑ j in range (i + 1), (cgsIter Am t).2.entry j i * (cgsIter Am t).1.entry k j)
  ∧ (∀ a b, t ≤ b ∨ b < a → (cgsIter Am t).2.entry a b = 0)

/-- The loop invariant of `QR::qrMGS` after `t` outer iterations, valid while
every processed index's norm `‖V[j]‖` exceeded the 1e-10 tolerance: zero
untouched `Q` entries, orthonormal processed `Q` columns, representation of the
processed columns of `A`, zero unwritten `R` entries, and for every unprocessed
column `k` the invariant of the partially orthogonalized vector `V[k]`. -/
def MgsInv (Am : Mat) (t : ℕ) : Prop :=
  (∀ k j, Am.rows ≤ k ∨ t ≤ j → (mgsIter Am t).1.1.entry k j = 0)
  ∧ (∀ j < t, ∀ j' < t, dot Am.rows ((mgsIter Am t).1.1.getCol j) ((mgsIter Am t).1.1.getCol j')
      = if j = j' then 1 else 0)
  ∧ (∀ i < t, ∀ k < Am.rows, Am.entry k i
      = ∑ j in range (i + 1), (mgsIter Am t).1.2.entry j i * (mgsIter Am t).1.1.entry k j)
  ∧ (∀ a b, t ≤ a ∨ b < a → (mgsIter Am t).1.2.entry a b = 0)
  ∧ (∀ k, t ≤ k → k < Am.cols →
      (∀ l < Am.rows, (mgsIter Am t).2 k l
        = Am.entry l k - ∑ j in range t,
            (mgsIter Am t).1.2.entry j k * (mgsIter Am t).1.1.entry l j)
      ∧ (∀ j < t, dot Am.rows ((mgsIter Am t).1.1.getCol j) ((mgsIter Am t).2 k) = 0))

/-- Modelled from the spec: the `Function` expression-node hierarchy
(`Function.h` is not among the inspected sources).  Variants per the spec's
data model: constant, unknown-reference, unary operation (negate, sqrt),
binary operation (add, subtract, multiply, divide).  Unknowns are identified
by reference identity, modelled as natural-number identifiers. -/
inductive Expr where
  | const : ℝ → Expr
  | var : ℕ → Expr
  | neg : Expr → Expr
  | sqrtE : Expr → Expr
  | add : Expr → Expr → Expr
  | sub : Expr → Expr → Expr
  | mul : Expr → Expr → Expr
  | div : Expr → Expr → Expr

/-- Modelled from the spec: `evaluate()` — numeric evaluation of an expression
node given the live values of the referenced unknowns. -/
def Expr.evalE (rho : ℕ → ℝ) : Expr → ℝ
  | .const c => c
  | .var v => rho v
  | .neg f => -(f.evalE rho)
  | .sqrtE f => Real.sqrt (f.evalE rho)
  | .add f g => f.evalE rho + g.evalE rho
  | .sub f g => f.evalE rho - g.evalE rho
  | .mul f g => f.evalE rho * g.evalE rho
  | .div f g => f.evalE rho / g.evalE rho

/-- Modelled from the spec: `differentiate(unknown)` — exact symbolic partial
differentiation built structurally by the standard calculus rules (sum rule,
product rule, quotient rule, chain rule for unary functions). -/
def Expr.derivative (u : ℕ) : Expr → Expr
  | .const _ => .const 0
  | .var v => .const (if v = u then 1 else 0)
  | .neg f => .neg (f.derivative u)
  | .sqrtE f => .div (f.derivative u) (.mul (.const 2) (.sqrtE f))
  | .add f g => .add (f.derivative u) (g.derivative u)
  | .sub f g => .sub (f.derivative u) (g.derivative u)
  | .mul f g => .add (.mul (f.derivative u) g) (.mul f (g.derivative u))
  | .div f g =>
      .div (.sub (.mul (f.derivative u) g) (.mul f (g.derivative u))) (.mul g g)

/-- The list of unknowns referenced in an expression subtree. -/
def Expr.vars : Expr → List ℕ
  | .const _ => []
  | .var v => [v]
  | .neg f => f.vars
  | .sqrtE f => f.vars
  | .add f g => f.vars ++ g.vars
  | .sub f g => f.vars ++ g.vars
  | .mul f g => f.vars ++ g.vars
  | .div f g => f.vars ++ g.vars

/-- The abstract Constraint Residual (`ErrorFunctions`, `ErrorFunctions.h`
lines 27-48): an ordered dependency list `m_X` of unknowns, and the owned
residual expression `c_f` that the concrete subclasses build over them at
construction time. -/
structure ErrorFunctions where
  m_X : List ℕ
  c_f : Expr

/-- Method `ErrorFunctions::getVariables` (`ErrorFunctions.h`, lines 34-36). -/
def ErrorFunctions.getVariables (e : ErrorFunctions) : List ℕ := e.m_X

/-- Method `ErrorFunctions::evaluate` (`ErrorFunctions.h`, lines 38-40): delegates to
the owned expression `c_f`. -/
def ErrorFunctions.evaluate (e : ErrorFunctions) (rho : ℕ → ℝ) : ℝ := e.c_f.evalE rho

/-- Method `ErrorFunctions::derivative` (`ErrorFunctions.h`, lines 42-44): delegates
to the owned expression `c_f`. -/
def ErrorFunctions.derivative (e : ErrorFunctions) (u : ℕ) : Expr := e.c_f.derivative u

/-- Method `ErrorFunctions::clone` (`ErrorFunctions.h`, lines 45-47): unconditionally
throws `std::runtime_error("Not implemented")`. -/
def ErrorFunctions.clone (e : ErrorFunctions) : Except CppError ErrorFunctions :=
  .error (.runtimeError ("Not implemented"))

/-- A Constraint Residual is well formed when its owned expression references
only unknowns from its dependency list (the spec: the residual formula is
built "over a fixed list of unknowns" at construction). -/
def ErrorFunctions.wf (e : ErrorFunctions) : Prop :=
  ∀ v, v ∈ e.c_f.vars → v ∈ e.m_X

/-- Modelled from the spec: `PointPointDistanceError` (declared at
`ErrorFunctions.h` lines 64-68; the constructor body lives in an uninspected
translation unit).  Residual formula per the spec's table:
`sqrt((x2-x1)² + (y2-y1)²) - d`. -/
def PointPointDistanceError (x1 y1 x2 y2 : ℕ) (d : ℝ) : ErrorFunctions :=
  { m_X := [x1, y1, x2, y2]
    c_f := .sub
      (.sqrtE (.add
        (.mul (.sub (.var x2) (.var x1)) (.sub (.var x2) (.var x1)))
        (.mul (.sub (.var y2) (.var y1)) (.sub (.var y2) (.var y1)))))
      (.const d) }

/-- Modelled from the spec: `PointOnPointError` (declared at
`ErrorFunctions.h` lines 71-75) — the `PointPointDistanceError`
specialization with target 0 (coincidence). -/
def PointOnPointError (x1 y1 x2 y2 : ℕ) : ErrorFunctions :=
  PointPointDistanceError x1 y1 x2 y2 0

/-- The 1×1 matrix [[2]], used as a concrete decomposition input. -/
def Awit : Mat := ⟨1, 1, fun _ _ => 2⟩

/-- The 1×1 matrix [[1e-11]]: full column rank, but with norm below the fixed
1e-10 tolerance of the Gram-Schmidt routines. -/
def Atiny : Mat := ⟨1, 1, fun _ _ => 1e-11⟩

/-- The 2×2 matrix with two identical columns (1,0) and (1,0). -/
def Adup : Mat := ⟨2, 2, fun k _ => if k = 0 then 1 else 0⟩

/-- The 2×2 matrix with columns (1e-11, 0) and (1, 0): the second column is a
scalar multiple of the first, but the first is degenerate for the 1e-10
tolerance. -/
def Amix : Mat :=
  ⟨2, 2, fun k j => if j = 0 then (if k = 0 then 1e-11 else 0)
    else (if k = 0 then 1 else 0)⟩

/-- The selectable decomposition strategies of the `QR` class. -/
inductive DecompOp where
  | qrDefault : DecompOp
  | cgs : DecompOp
  | mgs : DecompOp
  | igs : DecompOp
  | bgs : DecompOp
  | rgs : DecompOp
  | cgsp : DecompOp
  | householder : DecompOp
  | givens : DecompOp

/-- Dispatch a strategy selector to the corresponding `QR` method. -/
def applyOp : DecompOp → QR → QR
  | .qrDefault, s => qr s
  | .cgs, s => qrCGS s
  | .mgs, s => qrMGS s
  | .igs, s => qrIGS s
  | .bgs, s => qrBGS s
  | .rgs, s => qrRGS s
  | .cgsp, s => qrCGSP s
  | .householder, s => qrHouseholder s
  | .givens, s => qrGivens s

theorem forLoop_zero {α : Type} (f : ℕ → α → α) (a : α) : forLoop f 0 a = a := rfl

theorem forLoop_succ {α : Type} (f : ℕ → α → α) (n : ℕ) (a : α) :
    forLoop f (n + 1) a = f n (forLoop f n a) := rfl

theorem dot_comm (m : ℕ) (u v : ℕ → ℝ) : dot m u v = dot m v u := by
  unfold dot; exact Finset.sum_congr rfl fun k _ => mul_comm _ _

theorem dot_congr_left (m : ℕ) {u u' : ℕ → ℝ} (v : ℕ → ℝ)
    (h : ∀ k < m, u k = u' k) : dot m u v = dot m u' v := by
  unfold dot; exact Finset.sum_congr rfl fun k hk => by rw [h k (mem_range.mp hk)]

theorem dot_congr_right (m : ℕ) (u : ℕ → ℝ) {v v' : ℕ → ℝ}
    (h : ∀ k < m, v k = v' k) : dot m u v = dot m u v' := by
  unfold dot; exact Finset.sum_congr rfl fun k hk => by rw [h k (mem_range.mp hk)]

theorem dot_sub_left (m : ℕ) (u v w : ℕ → ℝ) :
    dot m (fun k => u k - v k) w = dot m u w - dot m v w := by
  unfold dot; rw [← Finset.sum_sub_distrib]
  exact Finset.sum_congr rfl fun k _ => sub_mul _ _ _

theorem dot_mul_left (m : ℕ) (c : ℝ) (u v : ℕ → ℝ) :
    dot m (fun k => c * u k) v = c * dot m u v := by
  unfold dot; rw [Finset.mul_sum]
  exact Finset.sum_congr rfl fun k _ => by ring

theorem dot_div_left (m : ℕ) (c : ℝ) (u v : ℕ → ℝ) :
    dot m (fun k => u k / c) v = dot m u v / c := by
  unfold dot; rw [Finset.sum_div]
  exact Finset.sum_congr rfl fun k _ => by ring

theorem dot_sum_left {ι : Type} (m : ℕ) (s : Finset ι) (f : ι → ℕ → ℝ) (v : ℕ → ℝ) :
    dot m (fun k => ∑ j in s, f j k) v = ∑ j in s, dot m (f j) v := by
  unfold dot
  rw [Finset.sum_comm]
  exact Finset.sum_congr rfl fun k _ => Finset.sum_mul _ _ _

theorem dot_self_nonneg (m : ℕ) (u : ℕ → ℝ) : 0 ≤ dot m u u :=
  Finset.sum_nonneg fun k _ => mul_self_nonneg (u k)

theorem Mat.mul_def (M N : Mat) : M * N = Mat.mul M N := rfl

theorem Mat.add_def (M N : Mat) : M + N = Mat.add M N := rfl

theorem Mat.smul_def (M : Mat) (c : ℝ) : M * c = Mat.smul M c := rfl

@[simp] theorem Mat.set_rows (M : Mat) (i j : ℕ) (x : ℝ) : (M.set i j x).rows = M.rows := rfl

@[simp] theorem Mat.set_cols (M : Mat) (i j : ℕ) (x : ℝ) : (M.set i j x).cols = M.cols := rfl

@[simp] theorem Mat.setCol_rows (M : Mat) (v : ℕ → ℝ) (j : ℕ) : (M.setCol v j).rows = M.rows := rfl

@[simp] theorem Mat.setCol_cols (M : Mat) (v : ℕ → ℝ) (j : ℕ) : (M.setCol v j).cols = M.cols := rfl

theorem Mat.set_entry (M : Mat) (i j : ℕ) (x : ℝ) (a b : ℕ) :
    (M.set i j x).entry a b = if a = i ∧ b = j then x else M.entry a b := rfl

theorem Mat.set_entry_same (M : Mat) (i j : ℕ) (x : ℝ) : (M.set i j x).entry i j = x := by
  simp [set_entry]

theorem Mat.set_entry_ne (M : Mat) (i j : ℕ) (x : ℝ) (a b : ℕ) (h : ¬(a = i ∧ b = j)) :
    (M.set i j x).entry a b = M.entry a b := by
  simp only [set_entry, if_neg h]

theorem Mat.setCol_entry (M : Mat) (v : ℕ → ℝ) (j a b : ℕ) :
    (M.setCol v j).entry a b = if b = j ∧ a < M.rows then v a else M.entry a b := rfl

theorem Mat.getCol_eq (M : Mat) (j k : ℕ) : M.getCol j k = M.entry k j := rfl

theorem cgsInnerLoop_fst (m : ℕ) (Qm : Mat) (v : ℕ → ℝ) (i : ℕ) (Rm : Mat) (t : ℕ) :
    (forLoop (cgsInnerStep m Qm v i) t (v, Rm)).1
      = fun k => v k - ∑ j in range t, dot m v (Qm.getCol j) * Qm.getCol j k := by
  induction t with
  | zero => funext k; simp [forLoop]
  | succ t ih =>
    funext k
    rw [forLoop_succ]
    simp only [cgsInnerStep, ih]
    rw [Finset.sum_range_succ]
    ring

theorem cgsInnerLoop_snd_entry (m : ℕ) (Qm : Mat) (v : ℕ → ℝ) (i : ℕ) (Rm : Mat)
    (t a b : ℕ) :
    (forLoop (cgsInnerStep m Qm v i) t (v, Rm)).2.entry a b
      = if a < t ∧ b = i then dot m v (Qm.getCol a) else Rm.entry a b := by
  induction t with
  | zero => simp [forLoop]
  | succ t ih =>
    rw [forLoop_succ]
    simp only [cgsInnerStep]
    rw [Mat.set_entry, ih]
    by_cases h1 : a = t ∧ b = i
    · rw [if_pos h1, if_pos (show a < t + 1 ∧ b = i from ⟨by omega, h1.2⟩), h1.1]
    · rw [if_neg h1]
      by_cases h2 : a < t ∧ b = i
      · rw [if_pos h2, if_pos ⟨Nat.lt_succ_of_lt h2.1, h2.2⟩]
      · rw [if_neg h2, if_neg]
        intro h3
        rcases Nat.lt_succ_iff_lt_or_eq.mp h3.1 with h4 | h4
        · exact h2 ⟨h4, h3.2⟩
        · exact h1 ⟨h4, h3.2⟩

theorem cgsInnerLoop_snd_rows (m : ℕ) (Qm : Mat) (v : ℕ → ℝ) (i : ℕ) (Rm : Mat) (t : ℕ) :
    (forLoop (cgsInnerStep m Qm v i) t (v, Rm)).2.rows = Rm.rows := by
  induction t with
  | zero => rfl
  | succ t ih => rw [forLoop_succ]; simp only [cgsInnerStep, Mat.set_rows]; exact ih

theorem cgsInnerLoop_snd_cols (m : ℕ) (Qm : Mat) (v : ℕ → ℝ) (i : ℕ) (Rm : Mat) (t : ℕ) :
    (forLoop (cgsInnerStep m Qm v i) t (v, Rm)).2.cols = Rm.cols := by
  induction t with
  | zero => rfl
  | succ t ih => rw [forLoop_succ]; simp only [cgsInnerStep, Mat.set_cols]; exact ih

theorem cgsInner_fst (m mn : ℕ) (Qm : Mat) (v : ℕ → ℝ) (i : ℕ) (Rm : Mat) :
    (cgsInner m mn Qm v i Rm).1
      = fun k => v k - ∑ j in range (min mn i), dot m v (Qm.getCol j) * Qm.getCol j k :=
  cgsInnerLoop_fst m Qm v i Rm (min mn i)

theorem cgsInner_snd_entry (m mn : ℕ) (Qm : Mat) (v : ℕ → ℝ) (i : ℕ) (Rm : Mat) (a b : ℕ) :
    (cgsInner m mn Qm v i Rm).2.entry a b
      = if a < min mn i ∧ b = i then dot m v (Qm.getCol a) else Rm.entry a b :=
  cgsInnerLoop_snd_entry m Qm v i Rm (min mn i) a b

theorem cgsIter_succ (Am : Mat) (t : ℕ) :
    cgsIter Am (t + 1) = cgsStep Am (min Am.rows Am.cols) t (cgsIter Am t) := rfl

theorem cgsStep_eq_pos (Am : Mat) (mn i : ℕ) (s : Mat × Mat) (h1 : i < mn)
    (h2 : 1e-10 < Real.sqrt (dot Am.rows (cgsInner Am.rows mn s.1 (Am.getCol i) i s.2).1
      (cgsInner Am.rows mn s.1 (Am.getCol i) i s.2).1)) :
    cgsStep Am mn i s
      = (s.1.setCol (fun k => (cgsInner Am.rows mn s.1 (Am.getCol i) i s.2).1 k /
            Real.sqrt (dot Am.rows (cgsInner Am.rows mn s.1 (Am.getCol i) i s.2).1
              (cgsInner Am.rows mn s.1 (Am.getCol i) i s.2).1)) i,
          (cgsInner Am.rows mn s.1 (Am.getCol i) i s.2).2.set i i
            (Real.sqrt (dot Am.rows (cgsInner Am.rows mn s.1 (Am.getCol i) i s.2).1
              (cgsInner Am.rows mn s.1 (Am.getCol i) i s.2).1))) := by
  simp only [cgsStep]
  rw [if_pos h1, if_pos h2]

theorem cgsStep_eq_neg (Am : Mat) (mn i : ℕ) (s : Mat × Mat) (h1 : i < mn)
    (h2 : ¬ 1e-10 < Real.sqrt (dot Am.rows (cgsInner Am.rows mn s.1 (Am.getCol i) i s.2).1
      (cgsInner Am.rows mn s.1 (Am.getCol i) i s.2).1)) :
    cgsStep Am mn i s = (s.1, (cgsInner Am.rows mn s.1 (Am.getCol i) i s.2).2.set i i 0) := by
  simp only [cgsStep]
  rw [if_pos h1, if_neg h2]

theorem cgsStep_eq_skip (Am : Mat) (mn i : ℕ) (s : Mat × Mat) (h1 : ¬ i < mn) :
    cgsStep Am mn i s = (s.1, (cgsInner Am.rows mn s.1 (Am.getCol i) i s.2).2) := by
  simp only [cgsStep]
  rw [if_neg h1]

theorem cgsStep_dims (Am : Mat) (mn i : ℕ) (s : Mat × Mat) :
    (cgsStep Am mn i s).1.rows = s.1.rows ∧ (cgsStep Am mn i s).1.cols = s.1.cols ∧
    (cgsStep Am mn i s).2.rows = s.2.rows ∧ (cgsStep Am mn i s).2.cols = s.2.cols := by
  by_cases h1 : i < mn
  · by_cases h2 : 1e-10 < Real.sqrt (dot Am.rows (cgsInner Am.rows mn s.1 (Am.getCol i) i s.2).1
      (cgsInner Am.rows mn s.1 (Am.getCol i) i s.2).1)
    · rw [cgsStep_eq_pos Am mn i s h1 h2]
      refine ⟨rfl, rfl, ?_, ?_⟩ <;>
        simp only [Mat.set_rows, Mat.set_cols, cgsInner, cgsInnerLoop_snd_rows,
          cgsInnerLoop_snd_cols]
    · rw [cgsStep_eq_neg Am mn i s h1 h2]
      refine ⟨rfl, rfl, ?_, ?_⟩ <;>
        simp only [Mat.set_rows, Mat.set_cols, cgsInner, cgsInnerLoop_snd_rows,
          cgsInnerLoop_snd_cols]
  · rw [cgsStep_eq_skip Am mn i s h1]
    refine ⟨rfl, rfl, ?_, ?_⟩ <;>
      simp only [cgsInner, cgsInnerLoop_snd_rows, cgsInnerLoop_snd_cols]

theorem cgsIter_dims (Am : Mat) (t : ℕ) :
    (cgsIter Am t).1.rows = Am.rows ∧ (cgsIter Am t).1.cols = min Am.rows Am.cols ∧
    (cgsIter Am t).2.rows = min Am.rows Am.cols ∧ (cgsIter Am t).2.cols = Am.cols := by
  induction t with
  | zero => exact ⟨rfl, rfl, rfl, rfl⟩
  | succ t ih =>
    rw [cgsIter_succ]
    obtain ⟨d1, d2, d3, d4⟩ := cgsStep_dims Am (min Am.rows Am.cols) t (cgsIter Am t)
    exact ⟨d1.trans ih.1, d2.trans ih.2.1, d3.trans ih.2.2.1, d4.trans ih.2.2.2⟩

theorem cgsStep_Q_entry_ne (Am : Mat) (mn i : ℕ) (s : Mat × Mat) (k j : ℕ) (hj : j ≠ i) :
    (cgsStep Am mn i s).1.entry k j = s.1.entry k j := by
  by_cases h1 : i < mn
  · by_cases h2 : 1e-10 < Real.sqrt (dot Am.rows (cgsInner Am.rows mn s.1 (Am.getCol i) i s.2).1
      (cgsInner Am.rows mn s.1 (Am.getCol i) i s.2).1)
    · rw [cgsStep_eq_pos Am mn i s h1 h2, Mat.setCol_entry, if_neg (fun h => hj h.1)]
    · rw [cgsStep_eq_neg Am mn i s h1 h2]
  · rw [cgsStep_eq_skip Am mn i s h1]

theorem cgsStep_R_entry_ne (Am : Mat) (mn i : ℕ) (s : Mat × Mat) (a b : ℕ) (hb : b ≠ i) :
    (cgsStep Am mn i s).2.entry a b = s.2.entry a b := by
  have hinner : (cgsInner Am.rows mn s.1 (Am.getCol i) i s.2).2.entry a b = s.2.entry a b := by
    rw [cgsInner_snd_entry, if_neg (fun h => hb h.2)]
  by_cases h1 : i < mn
  · by_cases h2 : 1e-10 < Real.sqrt (dot Am.rows (cgsInner Am.rows mn s.1 (Am.getCol i) i s.2).1
      (cgsInner Am.rows mn s.1 (Am.getCol i) i s.2).1)
    · rw [cgsStep_eq_pos Am mn i s h1 h2, Mat.set_entry, if_neg (fun h => hb h.2), hinner]
    · rw [cgsStep_eq_neg Am mn i s h1 h2, Mat.set_entry, if_neg (fun h => hb h.2), hinner]
  · rw [cgsStep_eq_skip Am mn i s h1, hinner]

theorem cgsIter_Q_entry_stable (Am : Mat) (i : ℕ) {t t' : ℕ} (hti : i < t) (ht : t ≤ t')
    (k : ℕ) : (cgsIter Am t').1.entry k i = (cgsIter Am t).1.entry k i := by
  induction t', ht using Nat.le_induction with
  | base => rfl
  | succ t'' h ih =>
    rw [cgsIter_succ, cgsStep_Q_entry_ne Am (min Am.rows Am.cols) t'' (cgsIter Am t'') k i
      (by omega), ih]

theorem cgsIter_R_entry_stable (Am : Mat) (b : ℕ) {t t' : ℕ} (hti : b < t) (ht : t ≤ t')
    (a : ℕ) : (cgsIter Am t').2.entry a b = (cgsIter Am t).2.entry a b := by
  induction t', ht using Nat.le_induction with
  | base => rfl
  | succ t'' h ih =>
    rw [cgsIter_succ, cgsStep_R_entry_ne Am (min Am.rows Am.cols) t'' (cgsIter Am t'') a b
      (by omega), ih]

theorem cgsU_eq (Am : Mat) (i : ℕ) (h : i ≤ min Am.rows Am.cols) :
    cgsU Am i = fun k => Am.getCol i k - ∑ j in range i,
      dot Am.rows (Am.getCol i) ((cgsIter Am i).1.getCol j) * (cgsIter Am i).1.getCol j k := by
  unfold cgsU
  rw [cgsInner_fst, min_eq_right h]

theorem residual_orth (m : ℕ) (Qm : Mat) (v : ℕ → ℝ) (t : ℕ)
    (ho : ∀ j < t, ∀ j' < t, dot m (Qm.getCol j) (Qm.getCol j') = if j = j' then 1 else 0)
    (l : ℕ) (hl : l < t) :
    dot m (fun k => v k - ∑ j in range t, dot m v (Qm.getCol j) * Qm.getCol j k)
      (Qm.getCol l) = 0 := by
  rw [dot_sub_left, dot_sum_left]
  have h1 : ∀ j ∈ range t,
      dot m (fun k => dot m v (Qm.getCol j) * Qm.getCol j k) (Qm.getCol l)
        = if j = l then dot m v (Qm.getCol l) else 0 := by
    intro j hj
    rw [dot_mul_left, ho j (mem_range.mp hj) l hl]
    by_cases hjl : j = l
    · rw [if_pos hjl, if_pos hjl, hjl, mul_one]
    · rw [if_neg hjl, if_neg hjl, mul_zero]
  rw [Finset.sum_congr rfl h1,
    Finset.sum_ite_eq' (range t) l (fun _ => dot m v (Qm.getCol l)),
    if_pos (mem_range.mpr hl)]
  ring

theorem cgs_invariant_step (Am : Mat) (t : ℕ) (ht : t < min Am.rows Am.cols)
    (hpos : 1e-10 < cgsNorm Am t) (ih : CgsInv Am t) : CgsInv Am (t + 1) := by
  obtain ⟨ihz, iho, ihr, ihR⟩ := ih
  have hQrows : (cgsIter Am t).1.rows = Am.rows := (cgsIter_dims Am t).1
  have hmin : min (min Am.rows Am.cols) t = t := min_eq_right (le_of_lt ht)
  have hsucc : cgsIter Am (t + 1)
      = ((cgsIter Am t).1.setCol (fun k => cgsU Am t k / cgsNorm Am t) t,
         (cgsInner Am.rows (min Am.rows Am.cols) (cgsIter Am t).1 (Am.getCol t) t
            (cgsIter Am t).2).2.set t t (cgsNorm Am t)) := by
    rw [cgsIter_succ]
    exact cgsStep_eq_pos Am (min Am.rows Am.cols) t (cgsIter Am t) ht hpos
  have hnv0 : (0:ℝ) < cgsNorm Am t := lt_trans (by norm_num) hpos
  have hnvne : cgsNorm Am t ≠ 0 := ne_of_gt hnv0
  have hsq : cgsNorm Am t * cgsNorm Am t = dot Am.rows (cgsU Am t) (cgsU Am t) :=
    Real.mul_self_sqrt (dot_self_nonneg _ _)
  have hQ' : ∀ k j, (cgsIter Am (t + 1)).1.entry k j
      = if j = t ∧ k < Am.rows then cgsU Am t k / cgsNorm Am t
        else (cgsIter Am t).1.entry k j := by
    intro k j
    rw [hsucc, Mat.setCol_entry, hQrows]
  have hR' : ∀ a b, (cgsIter Am (t + 1)).2.entry a b
      = if a = t ∧ b = t then cgsNorm Am t
        else if a < t ∧ b = t then dot Am.rows (Am.getCol t) ((cgsIter Am t).1.getCol a)
        else (cgsIter Am t).2.entry a b := by
    intro a b
    rw [hsucc, Mat.set_entry, cgsInner_snd_entry, hmin]
  have hUorth : ∀ l < t, dot Am.rows (cgsU Am t) ((cgsIter Am t).1.getCol l) = 0 := by
    intro l hl
    rw [cgsU_eq Am t (le_of_lt ht)]
    exact residual_orth Am.rows (cgsIter Am t).1 (Am.getCol t) t iho l hl
  have hcol_old : ∀ j, j ≠ t →
      ∀ k, (cgsIter Am (t + 1)).1.getCol j k = (cgsIter Am t).1.getCol j k := by
    intro j hj k
    rw [Mat.getCol_eq, Mat.getCol_eq, hQ', if_neg (fun h => hj h.1)]
  have hcol_t : ∀ k < Am.rows,
      (cgsIter Am (t + 1)).1.getCol t k = cgsU Am t k / cgsNorm Am t := by
    intro k hk
    rw [Mat.getCol_eq, hQ', if_pos ⟨rfl, hk⟩]
  have hdot_tt : dot Am.rows ((cgsIter Am (t + 1)).1.getCol t)
      ((cgsIter Am (t + 1)).1.getCol t) = 1 := by
    have e1 : dot Am.rows ((cgsIter Am (t + 1)).1.getCol t) ((cgsIter Am (t + 1)).1.getCol t)
        = dot Am.rows (fun k => cgsU Am t k / cgsNorm Am t)
            (fun k => cgsU Am t k / cgsNorm Am t) := by
      rw [dot_congr_left Am.rows _ hcol_t, dot_congr_right Am.rows _ hcol_t]
    rw [e1, dot_div_left, dot_comm, dot_div_left, ← hsq]
    field_simp
  have hdot_tl : ∀ l < t, dot Am.rows ((cgsIter Am (t + 1)).1.getCol t)
      ((cgsIter Am (t + 1)).1.getCol l) = 0 := by
    intro l hl
    have e1 : dot Am.rows ((cgsIter Am (t + 1)).1.getCol t) ((cgsIter Am (t + 1)).1.getCol l)
        = dot Am.rows (fun k => cgsU Am t k / cgsNorm Am t) ((cgsIter Am t).1.getCol l) := by
      rw [dot_congr_left Am.rows _ hcol_t,
        dot_congr_right Am.rows _ (fun k _ => hcol_old l (by omega) k)]
    rw [e1, dot_div_left, hUorth l hl, zero_div]
  refine ⟨?_, ?_, ?_, ?_⟩
  · -- untouched Q entries are zero
    intro k j hkj
    rw [hQ']
    by_cases hc : j = t ∧ k < Am.rows
    · exfalso
      rcases hkj with hk | hj
      · omega
      · omega
    · rw [if_neg hc]
      apply ihz
      rcases hkj with hk | hj
      · exact Or.inl hk
      · exact Or.inr (by omega)
  · -- orthonormality of the first t+1 columns
    intro j hj j' hj'
    rcases Nat.lt_succ_iff_lt_or_eq.mp hj with hjt | hjt
    · rcases Nat.lt_succ_iff_lt_or_eq.mp hj' with hj't | hj't
      · have e1 : dot Am.rows ((cgsIter Am (t + 1)).1.getCol j) ((cgsIter Am (t + 1)).1.getCol j')
            = dot Am.rows ((cgsIter Am t).1.getCol j) ((cgsIter Am t).1.getCol j') := by
          rw [dot_congr_left Am.rows _ (fun k _ => hcol_old j (by omega) k),
            dot_congr_right Am.rows _ (fun k _ => hcol_old j' (by omega) k)]
        rw [e1]
        exact iho j hjt j' hj't
      · subst hj't
        rw [dot_comm, hdot_tl j hjt, if_neg (by omega)]
    · subst hjt
      rcases Nat.lt_succ_iff_lt_or_eq.mp hj' with hj't | hj't
      · rw [hdot_tl j' hj't, if_neg (by omega)]
      · subst hj't
        rw [hdot_tt, if_pos rfl]
  · -- representation of the first t+1 columns of A
    intro i hi k hk
    rcases Nat.lt_succ_iff_lt_or_eq.mp hi with hit | hit
    · have e1 : ∀ j ∈ range (i + 1),
          (cgsIter Am (t + 1)).2.entry j i * (cgsIter Am (t + 1)).1.entry k j
            = (cgsIter Am t).2.entry j i * (cgsIter Am t).1.entry k j := by
        intro j hj
        have hjr := mem_range.mp hj
        rw [hR', hQ', if_neg (by omega : ¬(j = t ∧ i = t)),
          if_neg (by omega : ¬(j < t ∧ i = t)), if_neg (by omega : ¬(j = t ∧ k < Am.rows))]
      rw [Finset.sum_congr rfl e1]
      exact ihr i hit k hk
    · subst hit
      rw [Finset.sum_range_succ]
      have e2 : ∀ j ∈ range i,
          (cgsIter Am (i + 1)).2.entry j i * (cgsIter Am (i + 1)).1.entry k j
            = dot Am.rows (Am.getCol i) ((cgsIter Am i).1.getCol j)
                * (cgsIter Am i).1.entry k j := by
        intro j hj
        have hjr := mem_range.mp hj
        rw [hR', hQ', if_neg (by omega : ¬(j = i ∧ i = i)),
          if_pos (⟨hjr, rfl⟩ : j < i ∧ i = i), if_neg (by omega : ¬(j = i ∧ k < Am.rows))]
      rw [Finset.sum_congr rfl e2, hR', if_pos ⟨rfl, rfl⟩, hQ', if_pos ⟨rfl, hk⟩,
        mul_comm (cgsNorm Am i), div_mul_cancel₀ _ hnvne]
      have e3 : cgsU Am i k = Am.getCol i k - ∑ j in range i,
          dot Am.rows (Am.getCol i) ((cgsIter Am i).1.getCol j)
            * (cgsIter Am i).1.getCol j k := by
        rw [cgsU_eq Am i (le_of_lt ht)]
      have e4 : ∀ j ∈ range i, dot Am.rows (Am.getCol i) ((cgsIter Am i).1.getCol j)
          * (cgsIter Am i).1.getCol j k
            = dot Am.rows (Am.getCol i) ((cgsIter Am i).1.getCol j)
                * (cgsIter Am i).1.entry k j := fun j _ => rfl
      rw [Finset.sum_congr rfl e4] at e3
      have : Am.getCol i k = Am.entry k i := rfl
      rw [e3]
      rw [this.symm]
      ring
  · -- unwritten R entries are zero
    intro a b hab
    rw [hR']
    rw [if_neg (by omega : ¬(a = t ∧ b = t)), if_neg (by omega : ¬(a < t ∧ b = t))]
    apply ihR
    omega

theorem cgs_invariant (Am : Mat) (t : ℕ) (ht : t ≤ min Am.rows Am.cols)
    (H : ∀ j < t, 1e-10 < cgsNorm Am j) : CgsInv Am t := by
  induction t with
  | zero =>
    exact ⟨fun k j _ => rfl, fun j hj => absurd hj (Nat.not_lt_zero j),
      fun i hi => absurd hi (Nat.not_lt_zero i), fun a b _ => rfl⟩
  | succ t ih =>
    have ht' : t < min Am.rows Am.cols := Nat.lt_of_lt_of_le (Nat.lt_succ_self t) ht
    exact cgs_invariant_step Am t ht' (H t (Nat.lt_succ_self t))
      (ih (le_of_lt ht') fun j hj => H j (Nat.lt_succ_of_lt hj))

theorem cgsNorm_dependent (Am : Mat) (i : ℕ) (hi : i < min Am.rows Am.cols)
    (H : ∀ j < i, 1e-10 < cgsNorm Am j) (c : ℕ → ℝ)
    (hdep : ∀ k < Am.rows, Am.entry k i = ∑ j in range i, c j * Am.entry k j) :
    cgsNorm Am i = 0 := by
  obtain ⟨ihz, iho, ihr, ihR⟩ := cgs_invariant Am i (le_of_lt hi) H
  have hUorth : ∀ l < i, dot Am.rows (cgsU Am i) ((cgsIter Am i).1.getCol l) = 0 := by
    intro l hl
    rw [cgsU_eq Am i (le_of_lt hi)]
    exact residual_orth Am.rows (cgsIter Am i).1 (Am.getCol i) i iho l hl
  have hAcol : ∀ j < i, dot Am.rows (Am.getCol j) (cgsU Am i) = 0 := by
    intro j hj
    have e1 : dot Am.rows (Am.getCol j) (cgsU Am i)
        = dot Am.rows (fun k => ∑ l in range (j + 1),
            (cgsIter Am i).2.entry l j * (cgsIter Am i).1.getCol l k) (cgsU Am i) := by
      apply dot_congr_left
      intro k hk
      exact ihr j hj k hk
    rw [e1, dot_sum_left]
    apply Finset.sum_eq_zero
    intro l hl
    rw [dot_mul_left, dot_comm, hUorth l (by have := mem_range.mp hl; omega), mul_zero]
  have hvu : dot Am.rows (Am.getCol i) (cgsU Am i) = 0 := by
    have e1 : dot Am.rows (Am.getCol i) (cgsU Am i)
        = dot Am.rows (fun k => ∑ j in range i, c j * Am.getCol j k) (cgsU Am i) := by
      apply dot_congr_left
      intro k hk
      exact hdep k hk
    rw [e1, dot_sum_left]
    apply Finset.sum_eq_zero
    intro j hj
    rw [dot_mul_left, hAcol j (mem_range.mp hj), mul_zero]
  have huu : dot Am.rows (cgsU Am i) (cgsU Am i) = 0 := by
    nth_rewrite 2 [cgsU_eq Am i (le_of_lt hi)]
    rw [dot_comm, dot_sub_left, dot_sum_left, hvu]
    have e2 : ∀ j ∈ range i,
        dot Am.rows (fun k => dot Am.rows (Am.getCol i) ((cgsIter Am i).1.getCol j)
          * (cgsIter Am i).1.getCol j k) (cgsU Am i) = 0 := by
      intro j hj
      rw [dot_mul_left, dot_comm Am.rows ((cgsIter Am i).1.getCol j) (cgsU Am i),
        hUorth j (mem_range.mp hj), mul_zero]
    rw [Finset.sum_congr rfl e2, Finset.sum_const, smul_zero, sub_zero]
  unfold cgsNorm
  rw [huu, Real.sqrt_zero]

theorem cgsFinal_dependent (Am : Mat) (i : ℕ) (hi : i < min Am.rows Am.cols)
    (H : ∀ j < i, 1e-10 < cgsNorm Am j) (c : ℕ → ℝ)
    (hdep : ∀ k < Am.rows, Am.entry k i = ∑ j in range i, c j * Am.entry k j) :
    (cgsIter Am Am.cols).2.entry i i = 0 ∧ ∀ k, (cgsIter Am Am.cols).1.entry k i = 0 := by
  have h0 := cgsNorm_dependent Am i hi H c hdep
  have hneg : ¬ 1e-10 < cgsNorm Am i := by rw [h0]; norm_num
  have hstep : cgsIter Am (i + 1)
      = ((cgsIter Am i).1,
         (cgsInner Am.rows (min Am.rows Am.cols) (cgsIter Am i).1 (Am.getCol i) i
            (cgsIter Am i).2).2.set i i 0) := by
    rw [cgsIter_succ]
    exact cgsStep_eq_neg Am (min Am.rows Am.cols) i (cgsIter Am i) hi hneg
  have hin : i + 1 ≤ Am.cols := Nat.lt_of_lt_of_le hi (min_le_right _ _)
  constructor
  · rw [cgsIter_R_entry_stable Am i (Nat.lt_succ_self i) hin i, hstep]
    exact Mat.set_entry_same _ i i 0
  · intro k
    rw [cgsIter_Q_entry_stable Am i (Nat.lt_succ_self i) hin k, hstep]
    exact (cgs_invariant Am i (le_of_lt hi) H).1 k i (Or.inr (le_refl i))

theorem dot_sub_mul_right (m : ℕ) (x a b : ℕ → ℝ) (c : ℝ) :
    dot m x (fun l => a l - c * b l) = dot m x a - c * dot m x b := by
  rw [dot_comm, dot_sub_left, dot_mul_left, dot_comm m a x, dot_comm m b x]

theorem mgsInnerLoop_V (m : ℕ) (q : ℕ → ℝ) (j : ℕ) (R0 : Mat) (V : ℕ → ℕ → ℝ)
    (cnt k : ℕ) :
    (forLoop (fun t => mgsInnerStep m q j (j + 1 + t)) cnt (R0, V)).2 k
      = if j + 1 ≤ k ∧ k < j + 1 + cnt
        then fun l => V k l - dot m q (V k) * q l else V k := by
  induction cnt generalizing k with
  | zero =>
    rw [if_neg (by omega)]
    rfl
  | succ cnt ih =>
    rw [forLoop_succ]
    simp only [mgsInnerStep]
    by_cases hk : k = j + 1 + cnt
    · have hprev := ih (j + 1 + cnt)
      rw [if_neg (by omega)] at hprev
      rw [if_pos hk, hk, hprev, if_pos (by omega)]
    · rw [if_neg hk, ih k]
      by_cases h2 : j + 1 ≤ k ∧ k < j + 1 + cnt
      · rw [if_pos h2, if_pos (by omega)]
      · rw [if_neg h2, if_neg (by omega)]

theorem mgsInnerLoop_R (m : ℕ) (q : ℕ → ℝ) (j : ℕ) (R0 : Mat) (V : ℕ → ℕ → ℝ)
    (cnt a b : ℕ) :
    (forLoop (fun t => mgsInnerStep m q j (j + 1 + t)) cnt (R0, V)).1.entry a b
      = if a = j ∧ j + 1 ≤ b ∧ b < j + 1 + cnt then dot m q (V b) else R0.entry a b := by
  induction cnt with
  | zero =>
    rw [if_neg (by omega)]
    rfl
  | succ cnt ih =>
    rw [forLoop_succ]
    simp only [mgsInnerStep]
    rw [Mat.set_entry]
    have hV := mgsInnerLoop_V m q j R0 V cnt (j + 1 + cnt)
    rw [if_neg (by omega)] at hV
    by_cases h1 : a = j ∧ b = j + 1 + cnt
    · rw [if_pos h1, hV, h1.2, if_pos (by omega)]
    · rw [if_neg h1, ih]
      by_cases h2 : a = j ∧ j + 1 ≤ b ∧ b < j + 1 + cnt
      · rw [if_pos h2, if_pos (by omega)]
      · rw [if_neg h2, if_neg (by omega)]

theorem mgsInnerLoop_R_rows (m : ℕ) (q : ℕ → ℝ) (j : ℕ) (R0 : Mat) (V : ℕ → ℕ → ℝ)
    (cnt : ℕ) :
    (forLoop (fun t => mgsInnerStep m q j (j + 1 + t)) cnt (R0, V)).1.rows = R0.rows := by
  induction cnt with
  | zero => rfl
  | succ cnt ih => rw [forLoop_succ]; simp only [mgsInnerStep, Mat.set_rows]; exact ih

theorem mgsInnerLoop_R_cols (m : ℕ) (q : ℕ → ℝ) (j : ℕ) (R0 : Mat) (V : ℕ → ℕ → ℝ)
    (cnt : ℕ) :
    (forLoop (fun t => mgsInnerStep m q j (j + 1 + t)) cnt (R0, V)).1.cols = R0.cols := by
  induction cnt with
  | zero => rfl
  | succ cnt ih => rw [forLoop_succ]; simp only [mgsInnerStep, Mat.set_cols]; exact ih

theorem zeroRowLoop_entry (j : ℕ) (R0 : Mat) (cnt a b : ℕ) :
    (forLoop (fun t (Rm : Mat) => Rm.set j (j + 1 + t) 0) cnt R0).entry a b
      = if a = j ∧ j + 1 ≤ b ∧ b < j + 1 + cnt then 0 else R0.entry a b := by
  induction cnt with
  | zero =>
    rw [if_neg (by omega)]
    rfl
  | succ cnt ih =>
    rw [forLoop_succ, Mat.set_entry, ih]
    by_cases h1 : a = j ∧ b = j + 1 + cnt
    · rw [if_pos h1, if_pos (by omega)]
    · rw [if_neg h1]
      by_cases h2 : a = j ∧ j + 1 ≤ b ∧ b < j + 1 + cnt
      · rw [if_pos h2, if_pos (by omega)]
      · rw [if_neg h2, if_neg (by omega)]

theorem zeroRowLoop_rows (j : ℕ) (R0 : Mat) (cnt : ℕ) :
    (forLoop (fun t (Rm : Mat) => Rm.set j (j + 1 + t) 0) cnt R0).rows = R0.rows := by
  induction cnt with
  | zero => rfl
  | succ cnt ih => rw [forLoop_succ, Mat.set_rows, ih]

theorem zeroRowLoop_cols (j : ℕ) (R0 : Mat) (cnt : ℕ) :
    (forLoop (fun t (Rm : Mat) => Rm.set j (j + 1 + t) 0) cnt R0).cols = R0.cols := by
  induction cnt with
  | zero => rfl
  | succ cnt ih => rw [forLoop_succ, Mat.set_cols, ih]

theorem mgsStep_eq_pos (m n j : ℕ) (s : (Mat × Mat) × (ℕ → ℕ → ℝ))
    (h : 1e-10 < Real.sqrt (dot m (s.2 j) (s.2 j))) :
    mgsStep m n j s
      = ((s.1.1.setCol (fun l => s.2 j l / Real.sqrt (dot m (s.2 j) (s.2 j))) j,
          (forLoop (fun t => mgsInnerStep m
              (fun l => s.2 j l / Real.sqrt (dot m (s.2 j) (s.2 j))) j (j + 1 + t))
            (n - (j + 1)) (s.1.2.set j j (Real.sqrt (dot m (s.2 j) (s.2 j))), s.2)).1),
         (forLoop (fun t => mgsInnerStep m
              (fun l => s.2 j l / Real.sqrt (dot m (s.2 j) (s.2 j))) j (j + 1 + t))
            (n - (j + 1)) (s.1.2.set j j (Real.sqrt (dot m (s.2 j) (s.2 j))), s.2)).2) := by
  simp only [mgsStep]
  rw [if_pos h]

theorem mgsStep_eq_neg (m n j : ℕ) (s : (Mat × Mat) × (ℕ → ℕ → ℝ))
    (h : ¬ 1e-10 < Real.sqrt (dot m (s.2 j) (s.2 j))) :
    mgsStep m n j s
      = ((s.1.1.setCol (fun _ => 0) j,
          forLoop (fun t (Rm : Mat) => Rm.set j (j + 1 + t) 0) (n - (j + 1))
            (s.1.2.set j j (Real.sqrt (dot m (s.2 j) (s.2 j))))),
         s.2) := by
  simp only [mgsStep]
  rw [if_neg h]

theorem mgsIter_succ (Am : Mat) (t : ℕ) :
    mgsIter Am (t + 1) = mgsStep Am.rows Am.cols t (mgsIter Am t) := rfl

theorem mgsStep_dims (m n j : ℕ) (s : (Mat × Mat) × (ℕ → ℕ → ℝ)) :
    (mgsStep m n j s).1.1.rows = s.1.1.rows ∧ (mgsStep m n j s).1.1.cols = s.1.1.cols ∧
    (mgsStep m n j s).1.2.rows = s.1.2.rows ∧ (mgsStep m n j s).1.2.cols = s.1.2.cols := by
  by_cases h : 1e-10 < Real.sqrt (dot m (s.2 j) (s.2 j))
  · rw [mgsStep_eq_pos m n j s h]
    exact ⟨rfl, rfl,
      (mgsInnerLoop_R_rows _ _ _ _ _ _).trans (Mat.set_rows _ _ _ _),
      (mgsInnerLoop_R_cols _ _ _ _ _ _).trans (Mat.set_cols _ _ _ _)⟩
  · rw [mgsStep_eq_neg m n j s h]
    exact ⟨rfl, rfl,
      (zeroRowLoop_rows _ _ _).trans (Mat.set_rows _ _ _ _),
      (zeroRowLoop_cols _ _ _).trans (Mat.set_cols _ _ _ _)⟩

theorem mgsIter_dims (Am : Mat) (t : ℕ) :
    (mgsIter Am t).1.1.rows = Am.rows ∧ (mgsIter Am t).1.1.cols = min Am.rows Am.cols ∧
    (mgsIter Am t).1.2.rows = min Am.rows Am.cols ∧ (mgsIter Am t).1.2.cols = Am.cols := by
  induction t with
  | zero => exact ⟨rfl, rfl, rfl, rfl⟩
  | succ t ih =>
    rw [mgsIter_succ]
    obtain ⟨d1, d2, d3, d4⟩ := mgsStep_dims Am.rows Am.cols t (mgsIter Am t)
    exact ⟨d1.trans ih.1, d2.trans ih.2.1, d3.trans ih.2.2.1, d4.trans ih.2.2.2⟩

theorem mgsStep_Q_entry_ne (m n j : ℕ) (s : (Mat × Mat) × (ℕ → ℕ → ℝ)) (k l : ℕ)
    (hl : l ≠ j) : (mgsStep m n j s).1.1.entry k l = s.1.1.entry k l := by
  by_cases h : 1e-10 < Real.sqrt (dot m (s.2 j) (s.2 j))
  · rw [mgsStep_eq_pos m n j s h, Mat.setCol_entry, if_neg (fun hc => hl hc.1)]
  · rw [mgsStep_eq_neg m n j s h, Mat.setCol_entry, if_neg (fun hc => hl hc.1)]

theorem mgsStep_R_entry_ne (m n j : ℕ) (s : (Mat × Mat) × (ℕ → ℕ → ℝ)) (a b : ℕ)
    (ha : a ≠ j) : (mgsStep m n j s).1.2.entry a b = s.1.2.entry a b := by
  by_cases h : 1e-10 < Real.sqrt (dot m (s.2 j) (s.2 j))
  · rw [mgsStep_eq_pos m n j s h, mgsInnerLoop_R, if_neg (fun hc => ha hc.1),
      Mat.set_entry, if_neg (fun hc => ha hc.1)]
  · rw [mgsStep_eq_neg m n j s h, zeroRowLoop_entry, if_neg (fun hc => ha hc.1),
      Mat.set_entry, if_neg (fun hc => ha hc.1)]

theorem mgsIter_Q_entry_stable (Am : Mat) (i : ℕ) {t t' : ℕ} (hti : i < t) (ht : t ≤ t')
    (k : ℕ) : (mgsIter Am t').1.1.entry k i = (mgsIter Am t).1.1.entry k i := by
  induction t', ht using Nat.le_induction with
  | base => rfl
  | succ t'' h ih =>
    rw [mgsIter_succ, mgsStep_Q_entry_ne Am.rows Am.cols t'' (mgsIter Am t'') k i
      (by omega), ih]

theorem mgsIter_R_entry_stable (Am : Mat) (a : ℕ) {t t' : ℕ} (hta : a < t) (ht : t ≤ t')
    (b : ℕ) : (mgsIter Am t').1.2.entry a b = (mgsIter Am t).1.2.entry a b := by
  induction t', ht using Nat.le_induction with
  | base => rfl
  | succ t'' h ih =>
    rw [mgsIter_succ, mgsStep_R_entry_ne Am.rows Am.cols t'' (mgsIter Am t'') a b
      (by omega), ih]

theorem mgs_invariant_step (Am : Mat) (t : ℕ) (ht : t < min Am.rows Am.cols)
    (hpos : 1e-10 < mgsNorm Am t) (ih : MgsInv Am t) : MgsInv Am (t + 1) := by
  obtain ⟨ihz, iho, ihr, ihR, ihV⟩ := ih
  have hQrows : (mgsIter Am t).1.1.rows = Am.rows := (mgsIter_dims Am t).1
  have htn : t < Am.cols := lt_of_lt_of_le ht (min_le_right _ _)
  have harith : t + 1 + (Am.cols - (t + 1)) = Am.cols := by omega
  have hVt := ihV t (le_refl t) htn
  have hnv0 : (0:ℝ) < mgsNorm Am t := lt_trans (by norm_num) hpos
  have hnvne : mgsNorm Am t ≠ 0 := ne_of_gt hnv0
  have hsq : mgsNorm Am t * mgsNorm Am t
      = dot Am.rows ((mgsIter Am t).2 t) ((mgsIter Am t).2 t) :=
    Real.mul_self_sqrt (dot_self_nonneg _ _)
  have hsucc : mgsIter Am (t + 1)
      = (((mgsIter Am t).1.1.setCol (fun l => (mgsIter Am t).2 t l / mgsNorm Am t) t,
          (forLoop (fun x => mgsInnerStep Am.rows
              (fun l => (mgsIter Am t).2 t l / mgsNorm Am t) t (t + 1 + x))
            (Am.cols - (t + 1))
            ((mgsIter Am t).1.2.set t t (mgsNorm Am t), (mgsIter Am t).2)).1),
         (forLoop (fun x => mgsInnerStep Am.rows
              (fun l => (mgsIter Am t).2 t l / mgsNorm Am t) t (t + 1 + x))
            (Am.cols - (t + 1))
            ((mgsIter Am t).1.2.set t t (mgsNorm Am t), (mgsIter Am t).2)).2) := by
    rw [mgsIter_succ]
    exact mgsStep_eq_pos Am.rows Am.cols t (mgsIter Am t) hpos
  have hQ' : ∀ k l, (mgsIter Am (t + 1)).1.1.entry k l
      = if l = t ∧ k < Am.rows then (mgsIter Am t).2 t k / mgsNorm Am t
        else (mgsIter Am t).1.1.entry k l := by
    intro k l
    rw [hsucc, Mat.setCol_entry, hQrows]
  have hR' : ∀ a b, (mgsIter Am (t + 1)).1.2.entry a b
      = if a = t ∧ t + 1 ≤ b ∧ b < Am.cols
        then dot Am.rows (fun l => (mgsIter Am t).2 t l / mgsNorm Am t) ((mgsIter Am t).2 b)
        else if a = t ∧ b = t then mgsNorm Am t
        else (mgsIter Am t).1.2.entry a b := by
    intro a b
    rw [hsucc, mgsInnerLoop_R, harith, Mat.set_entry]
  have hV' : ∀ k, (mgsIter Am (t + 1)).2 k
      = if t + 1 ≤ k ∧ k < Am.cols
        then fun l => (mgsIter Am t).2 k l
          - dot Am.rows (fun x => (mgsIter Am t).2 t x / mgsNorm Am t) ((mgsIter Am t).2 k)
            * ((mgsIter Am t).2 t l / mgsNorm Am t)
        else (mgsIter Am t).2 k := by
    intro k
    rw [hsucc, mgsInnerLoop_V, harith]
  have hqq : dot Am.rows (fun l => (mgsIter Am t).2 t l / mgsNorm Am t)
      (fun l => (mgsIter Am t).2 t l / mgsNorm Am t) = 1 := by
    rw [dot_div_left, dot_comm, dot_div_left, ← hsq]
    field_simp
  have hqorth : ∀ j < t, dot Am.rows (fun l => (mgsIter Am t).2 t l / mgsNorm Am t)
      ((mgsIter Am t).1.1.getCol j) = 0 := by
    intro j hj
    rw [dot_div_left, dot_comm, hVt.2 j hj, zero_div]
  have hcol_old : ∀ j, j ≠ t →
      ∀ k, (mgsIter Am (t + 1)).1.1.getCol j k = (mgsIter Am t).1.1.getCol j k := by
    intro j hj k
    rw [Mat.getCol_eq, Mat.getCol_eq, hQ', if_neg (fun h => hj h.1)]
  have hcol_t : ∀ k < Am.rows,
      (mgsIter Am (t + 1)).1.1.getCol t k = (mgsIter Am t).2 t k / mgsNorm Am t := by
    intro k hk
    rw [Mat.getCol_eq, hQ', if_pos ⟨rfl, hk⟩]
  refine ⟨?_, ?_, ?_, ?_, ?_⟩
  · -- untouched Q entries are zero
    intro k j hkj
    rw [hQ']
    by_cases hc : j = t ∧ k < Am.rows
    · exfalso; rcases hkj with hk | hj <;> omega
    · rw [if_neg hc]
      apply ihz
      rcases hkj with hk | hj
      · exact Or.inl hk
      · exact Or.inr (by omega)
  · -- orthonormality of the first t+1 columns
    intro j hj j' hj'
    rcases Nat.lt_succ_iff_lt_or_eq.mp hj with hjt | hjt
    · rcases Nat.lt_succ_iff_lt_or_eq.mp hj' with hj't | hj't
      · have e1 : dot Am.rows ((mgsIter Am (t + 1)).1.1.getCol j)
            ((mgsIter Am (t + 1)).1.1.getCol j')
            = dot Am.rows ((mgsIter Am t).1.1.getCol j) ((mgsIter Am t).1.1.getCol j') := by
          rw [dot_congr_left Am.rows _ (fun k _ => hcol_old j (by omega) k),
            dot_congr_right Am.rows _ (fun k _ => hcol_old j' (by omega) k)]
        rw [e1]
        exact iho j hjt j' hj't
      · rw [hj't]
        have e1 : dot Am.rows ((mgsIter Am (t + 1)).1.1.getCol j)
            ((mgsIter Am (t + 1)).1.1.getCol t)
            = dot Am.rows (fun l => (mgsIter Am t).2 t l / mgsNorm Am t)
                ((mgsIter Am t).1.1.getCol j) := by
          rw [dot_congr_left Am.rows _ (fun k _ => hcol_old j (by omega) k),
            dot_congr_right Am.rows _ hcol_t, dot_comm]
        rw [e1, hqorth j hjt, if_neg (by omega)]
    · rw [hjt]
      rcases Nat.lt_succ_iff_lt_or_eq.mp hj' with hj't | hj't
      · have e1 : dot Am.rows ((mgsIter Am (t + 1)).1.1.getCol t)
            ((mgsIter Am (t + 1)).1.1.getCol j')
            = dot Am.rows (fun l => (mgsIter Am t).2 t l / mgsNorm Am t)
                ((mgsIter Am t).1.1.getCol j') := by
          rw [dot_congr_left Am.rows _ hcol_t,
            dot_congr_right Am.rows _ (fun k _ => hcol_old j' (by omega) k)]
        rw [e1, hqorth j' hj't, if_neg (by omega)]
      · rw [hj't]
        have e1 : dot Am.rows ((mgsIter Am (t + 1)).1.1.getCol t)
            ((mgsIter Am (t + 1)).1.1.getCol t)
            = dot Am.rows (fun l => (mgsIter Am t).2 t l / mgsNorm Am t)
                (fun l => (mgsIter Am t).2 t l / mgsNorm Am t) := by
          rw [dot_congr_left Am.rows _ hcol_t, dot_congr_right Am.rows _ hcol_t]
        rw [e1, hqq, if_pos rfl]
  · -- representation of the first t+1 columns of A
    intro i hi k hk
    rcases Nat.lt_succ_iff_lt_or_eq.mp hi with hit | hit
    · have e1 : ∀ j ∈ range (i + 1),
          (mgsIter Am (t + 1)).1.2.entry j i * (mgsIter Am (t + 1)).1.1.entry k j
            = (mgsIter Am t).1.2.entry j i * (mgsIter Am t).1.1.entry k j := by
        intro j hj
        have hjr := mem_range.mp hj
        rw [hR', hQ', if_neg (by omega : ¬(j = t ∧ t + 1 ≤ i ∧ i < Am.cols)),
          if_neg (by omega : ¬(j = t ∧ i = t)), if_neg (by omega : ¬(j = t ∧ k < Am.rows))]
      rw [Finset.sum_congr rfl e1]
      exact ihr i hit k hk
    · subst hit
      rw [Finset.sum_range_succ]
      have e2 : ∀ j ∈ range i,
          (mgsIter Am (i + 1)).1.2.entry j i * (mgsIter Am (i + 1)).1.1.entry k j
            = (mgsIter Am i).1.2.entry j i * (mgsIter Am i).1.1.entry k j := by
        intro j hj
        have hjr := mem_range.mp hj
        rw [hR', hQ', if_neg (by omega : ¬(j = i ∧ i + 1 ≤ i ∧ i < Am.cols)),
          if_neg (by omega : ¬(j = i ∧ i = i)), if_neg (by omega : ¬(j = i ∧ k < Am.rows))]
      rw [Finset.sum_congr rfl e2, hR',
        if_neg (by omega : ¬(i = i ∧ i + 1 ≤ i ∧ i < Am.cols)), if_pos ⟨rfl, rfl⟩,
        hQ', if_pos ⟨rfl, hk⟩, mul_comm (mgsNorm Am i), div_mul_cancel₀ _ hnvne]
      have e3 := hVt.1 k hk
      linarith [e3]
  · -- unwritten R entries are zero
    intro a b hab
    rw [hR', if_neg (by omega : ¬(a = t ∧ t + 1 ≤ b ∧ b < Am.cols)),
      if_neg (by omega : ¬(a = t ∧ b = t))]
    apply ihR
    omega
  · -- the V invariant for the still-unprocessed columns
    intro k hk hkn
    have hVk := ihV k (by omega) hkn
    have hVkEq : (mgsIter Am (t + 1)).2 k
        = fun l => (mgsIter Am t).2 k l
          - dot Am.rows (fun x => (mgsIter Am t).2 t x / mgsNorm Am t) ((mgsIter Am t).2 k)
            * ((mgsIter Am t).2 t l / mgsNorm Am t) := by
      rw [hV', if_pos ⟨hk, hkn⟩]
    have hVkEq2 : ∀ x, (mgsIter Am (t + 1)).2 k x
        = (mgsIter Am t).2 k x
          - dot Am.rows (fun y => (mgsIter Am t).2 t y / mgsNorm Am t) ((mgsIter Am t).2 k)
            * ((mgsIter Am t).2 t x / mgsNorm Am t) := fun x => congrFun hVkEq x
    constructor
    · intro l hl
      rw [hVkEq2 l, Finset.sum_range_succ]
      have e1 : ∀ j ∈ range t,
          (mgsIter Am (t + 1)).1.2.entry j k * (mgsIter Am (t + 1)).1.1.entry l j
            = (mgsIter Am t).1.2.entry j k * (mgsIter Am t).1.1.entry l j := by
        intro j hj
        have hjr := mem_range.mp hj
        rw [hR', hQ', if_neg (by omega : ¬(j = t ∧ t + 1 ≤ k ∧ k < Am.cols)),
          if_neg (by omega : ¬(j = t ∧ k = t)), if_neg (by omega : ¬(j = t ∧ l < Am.rows))]
      rw [Finset.sum_congr rfl e1, hR', if_pos ⟨rfl, hk, hkn⟩, hQ', if_pos ⟨rfl, hl⟩,
        hVk.1 l hl]
      ring
    · intro j hj
      rcases Nat.lt_succ_iff_lt_or_eq.mp hj with hjt | hjt
      · have e1 : dot Am.rows ((mgsIter Am (t + 1)).1.1.getCol j) ((mgsIter Am (t + 1)).2 k)
            = dot Am.rows ((mgsIter Am t).1.1.getCol j) ((mgsIter Am (t + 1)).2 k) :=
          dot_congr_left Am.rows _ (fun x _ => hcol_old j (by omega) x)
        rw [e1, hVkEq, dot_sub_mul_right, hVk.2 j hjt,
          dot_comm Am.rows ((mgsIter Am t).1.1.getCol j)
            (fun l => (mgsIter Am t).2 t l / mgsNorm Am t),
          hqorth j hjt, mul_zero, sub_zero]
      · rw [hjt]
        have e1 : dot Am.rows ((mgsIter Am (t + 1)).1.1.getCol t) ((mgsIter Am (t + 1)).2 k)
            = dot Am.rows (fun l => (mgsIter Am t).2 t l / mgsNorm Am t)
                ((mgsIter Am (t + 1)).2 k) :=
          dot_congr_left Am.rows _ hcol_t
        rw [e1, hVkEq, dot_sub_mul_right, hqq, mul_one, sub_self]

theorem mgs_invariant (Am : Mat) (t : ℕ) (ht : t ≤ min Am.rows Am.cols)
    (H : ∀ j < t, 1e-10 < mgsNorm Am j) : MgsInv Am t := by
  induction t with
  | zero =>
    refine ⟨fun k j _ => rfl, fun j hj => absurd hj (Nat.not_lt_zero j),
      fun i hi => absurd hi (Nat.not_lt_zero i), fun a b _ => rfl, ?_⟩
    intro k _ _
    refine ⟨fun l _ => by simp [mgsIter, forLoop, Mat.getCol_eq], ?_⟩
    intro j hj
    exact absurd hj (Nat.not_lt_zero j)
  | succ t ih =>
    have ht' : t < min Am.rows Am.cols := Nat.lt_of_lt_of_le (Nat.lt_succ_self t) ht
    exact mgs_invariant_step Am t ht' (H t (Nat.lt_succ_self t))
      (ih (le_of_lt ht') fun j hj => H j (Nat.lt_succ_of_lt hj))

theorem mgsNorm_dependent (Am : Mat) (i : ℕ) (hi : i < min Am.rows Am.cols)
    (H : ∀ j < i, 1e-10 < mgsNorm Am j) (c : ℕ → ℝ)
    (hdep : ∀ k < Am.rows, Am.entry k i = ∑ j in range i, c j * Am.entry k j) :
    mgsNorm Am i = 0 := by
  obtain ⟨ihz, iho, ihr, ihR, ihV⟩ := mgs_invariant Am i (le_of_lt hi) H
  have hin : i < Am.cols := lt_of_lt_of_le hi (min_le_right _ _)
  have hVi := ihV i (le_refl i) hin
  have hQV : ∀ j < i, dot Am.rows ((mgsIter Am i).1.1.getCol j) ((mgsIter Am i).2 i) = 0 :=
    hVi.2
  have hAj : ∀ j < i, dot Am.rows (Am.getCol j) ((mgsIter Am i).2 i) = 0 := by
    intro j hj
    have e1 : dot Am.rows (Am.getCol j) ((mgsIter Am i).2 i)
        = dot Am.rows (fun l => ∑ x in range (j + 1),
            (mgsIter Am i).1.2.entry x j * (mgsIter Am i).1.1.getCol x l)
            ((mgsIter Am i).2 i) := by
      apply dot_congr_left
      intro l hl
      exact ihr j hj l hl
    rw [e1, dot_sum_left]
    apply Finset.sum_eq_zero
    intro x hx
    rw [dot_mul_left, hQV x (by have := mem_range.mp hx; omega), mul_zero]
  have hAi : dot Am.rows (Am.getCol i) ((mgsIter Am i).2 i) = 0 := by
    have e1 : dot Am.rows (Am.getCol i) ((mgsIter Am i).2 i)
        = dot Am.rows (fun l => ∑ j in range i, c j * Am.getCol j l)
            ((mgsIter Am i).2 i) := by
      apply dot_congr_left
      intro l hl
      exact hdep l hl
    rw [e1, dot_sum_left]
    apply Finset.sum_eq_zero
    intro j hj
    rw [dot_mul_left, hAj j (mem_range.mp hj), mul_zero]
  have hVV : dot Am.rows ((mgsIter Am i).2 i) ((mgsIter Am i).2 i) = 0 := by
    have e1 : dot Am.rows ((mgsIter Am i).2 i) ((mgsIter Am i).2 i)
        = dot Am.rows (fun l => Am.entry l i - ∑ j in range i,
            (mgsIter Am i).1.2.entry j i * (mgsIter Am i).1.1.entry l j)
            ((mgsIter Am i).2 i) := by
      apply dot_congr_left
      intro l hl
      exact hVi.1 l hl
    rw [e1, dot_sub_left, dot_sum_left]
    have e2 : dot Am.rows (fun l => Am.entry l i) ((mgsIter Am i).2 i) = 0 := hAi
    have e3 : ∀ j ∈ range i,
        dot Am.rows (fun l => (mgsIter Am i).1.2.entry j i * (mgsIter Am i).1.1.entry l j)
          ((mgsIter Am i).2 i) = 0 := by
      intro j hj
      rw [dot_mul_left]
      have e4 : dot Am.rows (fun l => (mgsIter Am i).1.1.entry l j) ((mgsIter Am i).2 i) = 0 :=
        hQV j (mem_range.mp hj)
      rw [e4, mul_zero]
    rw [e2, Finset.sum_congr rfl e3, Finset.sum_const, smul_zero, sub_zero]
  unfold mgsNorm
  rw [hVV, Real.sqrt_zero]

theorem mgsFinal_dependent (Am : Mat) (i : ℕ) (hi : i < min Am.rows Am.cols)
    (H : ∀ j < i, 1e-10 < mgsNorm Am j) (c : ℕ → ℝ)
    (hdep : ∀ k < Am.rows, Am.entry k i = ∑ j in range i, c j * Am.entry k j) :
    (mgsIter Am (min Am.rows Am.cols)).1.2.entry i i = 0
    ∧ ∀ k, (mgsIter Am (min Am.rows Am.cols)).1.1.entry k i = 0 := by
  have h0 := mgsNorm_dependent Am i hi H c hdep
  have hneg : ¬ 1e-10 < mgsNorm Am i := by rw [h0]; norm_num
  have hstep : mgsIter Am (i + 1)
      = (((mgsIter Am i).1.1.setCol (fun _ => 0) i,
          forLoop (fun x (Rm : Mat) => Rm.set i (i + 1 + x) 0) (Am.cols - (i + 1))
            ((mgsIter Am i).1.2.set i i (mgsNorm Am i))),
         (mgsIter Am i).2) := by
    rw [mgsIter_succ]
    exact mgsStep_eq_neg Am.rows Am.cols i (mgsIter Am i) hneg
  have hsub : i + 1 ≤ min Am.rows Am.cols := hi
  constructor
  · rw [mgsIter_R_entry_stable Am i (Nat.lt_succ_self i) hsub i, hstep]
    have e1 : (forLoop (fun x (Rm : Mat) => Rm.set i (i + 1 + x) 0) (Am.cols - (i + 1))
        ((mgsIter Am i).1.2.set i i (mgsNorm Am i))).entry i i
        = ((mgsIter Am i).1.2.set i i (mgsNorm Am i)).entry i i := by
      rw [zeroRowLoop_entry, if_neg (by omega)]
    rw [e1, Mat.set_entry_same, h0]
  · intro k
    rw [mgsIter_Q_entry_stable Am i (Nat.lt_succ_self i) hsub k, hstep]
    rw [Mat.setCol_entry]
    by_cases hc : i = i ∧ k < (mgsIter Am i).1.1.rows
    · rw [if_pos hc]
    · rw [if_neg hc]
      apply (mgs_invariant Am i (le_of_lt hi) H).1
      right
      exact le_refl i

theorem cgs_main (Am : Mat) (h1 : Am.cols ≤ Am.rows)
    (H : ∀ i < Am.cols, 1e-10 < cgsNorm Am i) :
    (∀ i j, i < Am.cols → j < Am.cols →
      ((cgsIter Am Am.cols).1.transpose * (cgsIter Am Am.cols).1).entry i j
        = if i = j then 1 else 0)
    ∧ (∀ k i, k < Am.rows → i < Am.cols →
      ((cgsIter Am Am.cols).1 * (cgsIter Am Am.cols).2).entry k i = Am.entry k i)
    ∧ (∀ a b, b < a → (cgsIter Am Am.cols).2.entry a b = 0) := by
  have hmn : Am.cols ≤ min Am.rows Am.cols := le_min h1 (le_refl _)
  obtain ⟨ihz, iho, ihr, ihR⟩ := cgs_invariant Am Am.cols hmn H
  have hQrows : (cgsIter Am Am.cols).1.rows = Am.rows := (cgsIter_dims Am Am.cols).1
  have hQcols : (cgsIter Am Am.cols).1.cols = min Am.rows Am.cols :=
    (cgsIter_dims Am Am.cols).2.1
  refine ⟨?_, ?_, fun a b hab => ihR a b (Or.inr hab)⟩
  · intro i j hi hj
    have e1 : ((cgsIter Am Am.cols).1.transpose * (cgsIter Am Am.cols).1).entry i j
        = ∑ k in range (cgsIter Am Am.cols).1.rows,
            (cgsIter Am Am.cols).1.entry k i * (cgsIter Am Am.cols).1.entry k j := rfl
    rw [e1, hQrows]
    exact iho i hi j hj
  · intro k i hk hi
    have e1 : ((cgsIter Am Am.cols).1 * (cgsIter Am Am.cols).2).entry k i
        = ∑ j in range (cgsIter Am Am.cols).1.cols,
            (cgsIter Am Am.cols).1.entry k j * (cgsIter Am Am.cols).2.entry j i := rfl
    rw [e1, hQcols, min_eq_right h1]
    have e2 : ∑ j in range (i + 1),
          (cgsIter Am Am.cols).1.entry k j * (cgsIter Am Am.cols).2.entry j i
        = ∑ j in range Am.cols,
          (cgsIter Am Am.cols).1.entry k j * (cgsIter Am Am.cols).2.entry j i := by
      apply Finset.sum_subset (Finset.range_subset.mpr hi)
      intro x hx hxn
      have hxi : i < x := by
        have h2 : ¬ x < i + 1 := fun hc => hxn (mem_range.mpr hc)
        omega
      rw [ihR x i (Or.inr hxi), mul_zero]
    rw [← e2]
    have e3 : ∀ j ∈ range (i + 1),
        (cgsIter Am Am.cols).1.entry k j * (cgsIter Am Am.cols).2.entry j i
          = (cgsIter Am Am.cols).2.entry j i * (cgsIter Am Am.cols).1.entry k j :=
      fun j _ => mul_comm _ _
    rw [Finset.sum_congr rfl e3]
    exact (ihr i hi k hk).symm

theorem mgs_main (Am : Mat) (h1 : Am.cols ≤ Am.rows)
    (H : ∀ i < Am.cols, 1e-10 < mgsNorm Am i) :
    (∀ i j, i < Am.cols → j < Am.cols →
      ((mgsIter Am (min Am.rows Am.cols)).1.1.transpose
          * (mgsIter Am (min Am.rows Am.cols)).1.1).entry i j
        = if i = j then 1 else 0)
    ∧ (∀ k i, k < Am.rows → i < Am.cols →
      ((mgsIter Am (min Am.rows Am.cols)).1.1 * (mgsIter Am (min Am.rows Am.cols)).1.2).entry k i
        = Am.entry k i)
    ∧ (∀ a b, b < a → (mgsIter Am (min Am.rows Am.cols)).1.2.entry a b = 0) := by
  have hmneq : min Am.rows Am.cols = Am.cols := min_eq_right h1
  obtain ⟨ihz, iho, ihr, ihR, ihV⟩ := mgs_invariant Am (min Am.rows Am.cols) (le_refl _)
    (fun j hj => H j (by omega))
  have hQrows : (mgsIter Am (min Am.rows Am.cols)).1.1.rows = Am.rows :=
    (mgsIter_dims Am (min Am.rows Am.cols)).1
  have hQcols : (mgsIter Am (min Am.rows Am.cols)).1.1.cols = min Am.rows Am.cols :=
    (mgsIter_dims Am (min Am.rows Am.cols)).2.1
  refine ⟨?_, ?_, fun a b hab => ihR a b (Or.inr hab)⟩
  · intro i j hi hj
    have e1 : ((mgsIter Am (min Am.rows Am.cols)).1.1.transpose
          * (mgsIter Am (min Am.rows Am.cols)).1.1).entry i j
        = ∑ k in range (mgsIter Am (min Am.rows Am.cols)).1.1.rows,
            (mgsIter Am (min Am.rows Am.cols)).1.1.entry k i
              * (mgsIter Am (min Am.rows Am.cols)).1.1.entry k j := rfl
    rw [e1, hQrows]
    exact iho i (by omega) j (by omega)
  · intro k i hk hi
    have e1 : ((mgsIter Am (min Am.rows Am.cols)).1.1
          * (mgsIter Am (min Am.rows Am.cols)).1.2).entry k i
        = ∑ j in range (mgsIter Am (min Am.rows Am.cols)).1.1.cols,
            (mgsIter Am (min Am.rows Am.cols)).1.1.entry k j
              * (mgsIter Am (min Am.rows Am.cols)).1.2.entry j i := rfl
    rw [e1, hQcols]
    have e2 : ∑ j in range (i + 1),
          (mgsIter Am (min Am.rows Am.cols)).1.1.entry k j
            * (mgsIter Am (min Am.rows Am.cols)).1.2.entry j i
        = ∑ j in range (min Am.rows Am.cols),
          (mgsIter Am (min Am.rows Am.cols)).1.1.entry k j
            * (mgsIter Am (min Am.rows Am.cols)).1.2.entry j i := by
      apply Finset.sum_subset (Finset.range_subset.mpr (by rw [hmneq]; omega))
      intro x hx hxn
      have hxi : i < x := by
        have h2 : ¬ x < i + 1 := fun hc => hxn (mem_range.mpr hc)
        omega
      rw [ihR x i (Or.inr hxi), mul_zero]
    rw [← e2]
    have e3 : ∀ j ∈ range (i + 1),
        (mgsIter Am (min Am.rows Am.cols)).1.1.entry k j
            * (mgsIter Am (min Am.rows Am.cols)).1.2.entry j i
          = (mgsIter Am (min Am.rows Am.cols)).1.2.entry j i
              * (mgsIter Am (min Am.rows Am.cols)).1.1.entry k j :=
      fun j _ => mul_comm _ _
    rw [Finset.sum_congr rfl e3]
    exact (ihr i (by rw [hmneq]; omega) k hk).symm

theorem derivative_absent_eval_zero (u : ℕ) (e : Expr) (hu : u ∉ e.vars) (rho : ℕ → ℝ) :
    (e.derivative u).evalE rho = 0 := by
  induction e with
  | const c => simp [Expr.derivative, Expr.evalE]
  | var v =>
    have hvu : ¬ v = u := by
      intro h
      exact hu (by simp [Expr.vars, h])
    simp [Expr.derivative, Expr.evalE, hvu]
  | neg f ihf =>
    have h1 : u ∉ f.vars := fun h => hu (by simpa [Expr.vars] using h)
    simp [Expr.derivative, Expr.evalE, ihf h1]
  | sqrtE f ihf =>
    have h1 : u ∉ f.vars := fun h => hu (by simpa [Expr.vars] using h)
    simp [Expr.derivative, Expr.evalE, ihf h1]
  | add f g ihf ihg =>
    have h1 : u ∉ f.vars := fun h => hu (by simp [Expr.vars, h])
    have h2 : u ∉ g.vars := fun h => hu (by simp [Expr.vars, h])
    simp [Expr.derivative, Expr.evalE, ihf h1, ihg h2]
  | sub f g ihf ihg =>
    have h1 : u ∉ f.vars := fun h => hu (by simp [Expr.vars, h])
    have h2 : u ∉ g.vars := fun h => hu (by simp [Expr.vars, h])
    simp [Expr.derivative, Expr.evalE, ihf h1, ihg h2]
  | mul f g ihf ihg =>
    have h1 : u ∉ f.vars := fun h => hu (by simp [Expr.vars, h])
    have h2 : u ∉ g.vars := fun h => hu (by simp [Expr.vars, h])
    simp [Expr.derivative, Expr.evalE, ihf h1, ihg h2]
  | div f g ihf ihg =>
    have h1 : u ∉ f.vars := fun h => hu (by simp [Expr.vars, h])
    have h2 : u ∉ g.vars := fun h => hu (by simp [Expr.vars, h])
    simp [Expr.derivative, Expr.evalE, ihf h1, ihg h2]

theorem Mat.inverse_triangular (M : Mat) (hsq : M.rows = M.cols)
    (hut : ∀ a b, b < a → M.entry a b = 0)
    (hd : ∀ a, a < M.rows → 0 < M.entry a a) :
    ∃ Minv : Mat, M.inverse = .ok Minv ∧ Minv.rows = M.rows ∧ Minv.cols = M.rows ∧
      ∀ i j, i < M.rows → j < M.rows →
        (M * Minv).entry i j = if i = j then 1 else 0 := by
  have hbt : M.toSq.BlockTriangular id := by
    intro i j hij
    exact hut i j hij
  have hdet : IsUnit M.toSq.det := by
    rw [Matrix.det_of_upperTriangular hbt]
    apply isUnit_iff_ne_zero.mpr
    apply ne_of_gt
    apply Finset.prod_pos
    intro i _
    exact hd i i.isLt
  refine ⟨⟨M.rows, M.rows, fun i j =>
      if h : i < M.rows ∧ j < M.rows then M.toSq⁻¹ ⟨i, h.1⟩ ⟨j, h.2⟩ else 0⟩, ?_, rfl, rfl, ?_⟩
  · simp only [Mat.inverse]
    rw [if_pos ⟨hsq, hdet⟩]
  · intro i j hi hj
    have e1 : (M * (⟨M.rows, M.rows, fun i j =>
        if h : i < M.rows ∧ j < M.rows then M.toSq⁻¹ ⟨i, h.1⟩ ⟨j, h.2⟩ else 0⟩ : Mat)).entry i j
        = ∑ k in range M.cols, M.entry i k *
            (if h : k < M.rows ∧ j < M.rows then M.toSq⁻¹ ⟨k, h.1⟩ ⟨j, h.2⟩ else 0) := rfl
    rw [e1, ← hsq, ← Fin.sum_univ_eq_sum_range
      (fun k => M.entry i k * (if h : k < M.rows ∧ j < M.rows
        then M.toSq⁻¹ ⟨k, h.1⟩ ⟨j, h.2⟩ else 0)) M.rows]
    have e2 : ∀ k : Fin M.rows,
        M.entry i ↑k * (if h : ↑k < M.rows ∧ j < M.rows
          then M.toSq⁻¹ ⟨↑k, h.1⟩ ⟨j, h.2⟩ else 0)
        = M.toSq ⟨i, hi⟩ k * M.toSq⁻¹ k ⟨j, hj⟩ := by
      intro k
      rw [dif_pos ⟨k.isLt, hj⟩]
      rfl
    rw [Finset.sum_congr rfl (fun k _ => e2 k)]
    have e3 : ∑ k : Fin M.rows, M.toSq ⟨i, hi⟩ k * M.toSq⁻¹ k ⟨j, hj⟩
        = (M.toSq * M.toSq⁻¹) ⟨i, hi⟩ ⟨j, hj⟩ := (Matrix.mul_apply).symm
    rw [e3, Matrix.mul_nonsing_inv M.toSq hdet, Matrix.one_apply]
    by_cases hij : i = j
    · rw [if_pos (by simp [hij]), if_pos hij]
    · rw [if_neg (by simp [hij]), if_neg hij]

theorem pseudoInverse_spec (s : QR) (hsq : s._R.rows = s._R.cols)
    (hut : ∀ a b, b < a → s._R.entry a b = 0)
    (hd : ∀ a, 0 ≤ s._R.entry a a) :
    ∃ Rinv : Mat, (s._R + Mat.identity s._R.rows * (1e-8:ℝ)).inverse = .ok Rinv ∧
      s.pseudoInverse = .ok (Rinv * s._Q.transpose) ∧
      ∀ i j, i < s._R.rows → j < s._R.rows →
        ((s._R + Mat.identity s._R.rows * (1e-8:ℝ)) * Rinv).entry i j
          = if i = j then 1 else 0 := by
  have hrows : (s._R + Mat.identity s._R.rows * (1e-8:ℝ)).rows = s._R.rows := rfl
  have hentry : ∀ a b, (s._R + Mat.identity s._R.rows * (1e-8:ℝ)).entry a b
      = s._R.entry a b + (if a = b ∧ a < s._R.rows then (1:ℝ) else 0) * 1e-8 :=
    fun a b => rfl
  have hut' : ∀ a b, b < a → (s._R + Mat.identity s._R.rows * (1e-8:ℝ)).entry a b = 0 := by
    intro a b hab
    rw [hentry, hut a b hab, if_neg (by omega)]
    norm_num
  have hd' : ∀ a, a < (s._R + Mat.identity s._R.rows * (1e-8:ℝ)).rows →
      0 < (s._R + Mat.identity s._R.rows * (1e-8:ℝ)).entry a a := by
    intro a ha
    rw [hrows] at ha
    rw [hentry, if_pos ⟨rfl, ha⟩]
    have := hd a
    norm_num
    linarith
  obtain ⟨Rinv, hinv, hr1, hr2, hmulinv⟩ :=
    Mat.inverse_triangular (s._R + Mat.identity s._R.rows * (1e-8:ℝ)) hsq hut' hd'
  refine ⟨Rinv, hinv, ?_, fun i j hi hj => hmulinv i j hi hj⟩
  show ((s._R + Mat.identity s._R.rows * (1e-8:ℝ)).inverse).map
    (fun Rinv => Rinv * s._Q.transpose) = .ok (Rinv * s._Q.transpose)
  rw [hinv]
  rfl

theorem cgsU_one_const (c : ℝ) : cgsU ⟨1, 1, fun _ _ => c⟩ 0 = fun _ => c := by
  rw [cgsU_eq ⟨1, 1, fun _ _ => c⟩ 0 (Nat.zero_le _)]
  funext k
  simp [Mat.getCol_eq]

theorem cgsNorm_one_const (c : ℝ) (hc : 0 ≤ c) :
    cgsNorm ⟨1, 1, fun _ _ => c⟩ 0 = c := by
  unfold cgsNorm
  rw [cgsU_one_const c]
  have e1 : dot (Mat.rows ⟨1, 1, fun _ _ => c⟩) (fun _ => c) (fun _ => c) = c * c := by
    simp [dot]
  rw [e1]
  exact Real.sqrt_mul_self hc

theorem mgsNorm_one_const (c : ℝ) (hc : 0 ≤ c) :
    mgsNorm ⟨1, 1, fun _ _ => c⟩ 0 = c := by
  unfold mgsNorm
  have e1 : dot (Mat.rows ⟨1, 1, fun _ _ => c⟩)
      ((mgsIter ⟨1, 1, fun _ _ => c⟩ 0).2 0) ((mgsIter ⟨1, 1, fun _ _ => c⟩ 0).2 0)
      = c * c := by
    simp [dot, mgsIter, forLoop, Mat.getCol_eq]
  rw [e1]
  exact Real.sqrt_mul_self hc

theorem cgsNorm_Awit : cgsNorm Awit 0 = 2 := cgsNorm_one_const 2 (by norm_num)

theorem mgsNorm_Awit : mgsNorm Awit 0 = 2 := mgsNorm_one_const 2 (by norm_num)

theorem cgsIter_Awit_one :
    cgsIter Awit 1
      = ((cgsIter Awit 0).1.setCol (fun k => cgsU Awit 0 k / cgsNorm Awit 0) 0,
         (cgsInner Awit.rows (min Awit.rows Awit.cols) (cgsIter Awit 0).1 (Awit.getCol 0) 0
            (cgsIter Awit 0).2).2.set 0 0 (cgsNorm Awit 0)) := by
  rw [cgsIter_succ]
  exact cgsStep_eq_pos Awit (min Awit.rows Awit.cols) 0 (cgsIter Awit 0) (by decide)
    (by show (1e-10:ℝ) < cgsNorm Awit 0; rw [cgsNorm_Awit]; norm_num)

theorem qrCGS_Awit_Q00 : (qrCGS ⟨Awit, Mat.mk0 0 0, Mat.mk0 0 0⟩)._Q.entry 0 0 = 1 := by
  show (cgsIter Awit 1).1.entry 0 0 = 1
  rw [cgsIter_Awit_one, Mat.setCol_entry, if_pos ⟨rfl, by decide⟩]
  have e1 : cgsU Awit 0 0 = 2 := congrFun (cgsU_one_const 2) 0
  rw [e1, cgsNorm_Awit]
  norm_num

theorem qrCGS_Awit_R_entry (a b : ℕ) :
    (qrCGS ⟨Awit, Mat.mk0 0 0, Mat.mk0 0 0⟩)._R.entry a b
      = if a = 0 ∧ b = 0 then 2 else 0 := by
  show (cgsIter Awit 1).2.entry a b = if a = 0 ∧ b = 0 then 2 else 0
  rw [cgsIter_Awit_one, Mat.set_entry, cgsInner_snd_entry]
  by_cases h1 : a = 0 ∧ b = 0
  · rw [if_pos h1, if_pos h1, cgsNorm_Awit]
  · rw [if_neg h1, if_neg h1, if_neg (by omega)]
    rfl

theorem cgsNorm_Atiny : cgsNorm Atiny 0 = 1e-11 := cgsNorm_one_const 1e-11 (by norm_num)

theorem mgsNorm_Atiny : mgsNorm Atiny 0 = 1e-11 := mgsNorm_one_const 1e-11 (by norm_num)

theorem cgsIter_Atiny_one :
    cgsIter Atiny 1
      = ((cgsIter Atiny 0).1,
         (cgsInner Atiny.rows (min Atiny.rows Atiny.cols) (cgsIter Atiny 0).1
            (Atiny.getCol 0) 0 (cgsIter Atiny 0).2).2.set 0 0 0) := by
  rw [cgsIter_succ]
  exact cgsStep_eq_neg Atiny (min Atiny.rows Atiny.cols) 0 (cgsIter Atiny 0) (by decide)
    (by show ¬ (1e-10:ℝ) < cgsNorm Atiny 0; rw [cgsNorm_Atiny]; norm_num)

theorem qrCGS_Atiny_QtQ :
    ((qrCGS ⟨Atiny, Mat.mk0 0 0, Mat.mk0 0 0⟩)._Q.transpose
      * (qrCGS ⟨Atiny, Mat.mk0 0 0, Mat.mk0 0 0⟩)._Q).entry 0 0 = 0 := by
  show ((cgsIter Atiny 1).1.transpose * (cgsIter Atiny 1).1).entry 0 0 = 0
  rw [cgsIter_Atiny_one]
  simp [Mat.mul_def, Mat.mul, Mat.transpose, Mat.mk0, cgsIter, forLoop]

theorem mgsIter_Atiny_one :
    mgsIter Atiny 1
      = (((mgsIter Atiny 0).1.1.setCol (fun _ => 0) 0,
          forLoop (fun x (Rm : Mat) => Rm.set 0 (0 + 1 + x) 0) (Atiny.cols - (0 + 1))
            ((mgsIter Atiny 0).1.2.set 0 0 (mgsNorm Atiny 0))),
         (mgsIter Atiny 0).2) := by
  rw [mgsIter_succ]
  exact mgsStep_eq_neg Atiny.rows Atiny.cols 0 (mgsIter Atiny 0)
    (by show ¬ (1e-10:ℝ) < mgsNorm Atiny 0; rw [mgsNorm_Atiny]; norm_num)

theorem qrMGS_Atiny_QtQ :
    ((qrMGS ⟨Atiny, Mat.mk0 0 0, Mat.mk0 0 0⟩)._Q.transpose
      * (qrMGS ⟨Atiny, Mat.mk0 0 0, Mat.mk0 0 0⟩)._Q).entry 0 0 = 0 := by
  show ((mgsIter Atiny 1).1.1.transpose * (mgsIter Atiny 1).1.1).entry 0 0 = 0
  rw [mgsIter_Atiny_one]
  simp [Mat.mul_def, Mat.mul, Mat.transpose, Mat.setCol, Mat.mk0, mgsIter, forLoop]

/-- Claim C1 (amended): for every m×n input matrix A with m ≥ n such that at
every column both Gram-Schmidt routines compute a residual norm exceeding the
fixed 1e-10 tolerance (which holds for well-scaled full-column-rank input but
can fail for full-rank matrices with very small columns), `qrCGS` and `qrMGS`
populate Q and R with QᵀQ = Iₙ and Q·R = A exactly in the real-arithmetic
model (hence within any positive tolerance such as 1e-8), and R is upper
triangular. -/
theorem gramschmidt_orthonormal_and_factorizes (s : QR)
    (h1 : s._A.cols ≤ s._A.rows)
    (Hc : ∀ i < s._A.cols, 1e-10 < cgsNorm s._A i)
    (Hm : ∀ i < s._A.cols, 1e-10 < mgsNorm s._A i) :
    (∀ i j, i < s._A.cols → j < s._A.cols →
      ((qrCGS s).Q.transpose * (qrCGS s).Q).entry i j = if i = j then 1 else 0)
    ∧ (∀ k i, k < s._A.rows → i < s._A.cols →
      ((qrCGS s).Q * (qrCGS s).R).entry k i = s._A.entry k i)
    ∧ (∀ a b, b < a → (qrCGS s).R.entry a b = 0)
    ∧ (∀ i j, i < s._A.cols → j < s._A.cols →
      ((qrMGS s).Q.transpose * (qrMGS s).Q).entry i j = if i = j then 1 else 0)
    ∧ (∀ k i, k < s._A.rows → i < s._A.cols →
      ((qrMGS s).Q * (qrMGS s).R).entry k i = s._A.entry k i)
    ∧ (∀ a b, b < a → (qrMGS s).R.entry a b = 0) := by
  obtain ⟨c1, c2, c3⟩ := cgs_main s._A h1 Hc
  obtain ⟨m1, m2, m3⟩ := mgs_main s._A h1 Hm
  exact ⟨c1, c2, c3, m1, m2, m3⟩

theorem gramschmidt_orthonormal_and_factorizes_witness :
    (Awit.cols ≤ Awit.rows
      ∧ (∀ i < Awit.cols, 1e-10 < cgsNorm Awit i)
      ∧ (∀ i < Awit.cols, 1e-10 < mgsNorm Awit i))
    ∧ ((∀ i j, i < Awit.cols → j < Awit.cols →
        ((qrCGS ⟨Awit, Mat.mk0 0 0, Mat.mk0 0 0⟩).Q.transpose
          * (qrCGS ⟨Awit, Mat.mk0 0 0, Mat.mk0 0 0⟩).Q).entry i j = if i = j then 1 else 0)
      ∧ (∀ k i, k < Awit.rows → i < Awit.cols →
        ((qrCGS ⟨Awit, Mat.mk0 0 0, Mat.mk0 0 0⟩).Q
          * (qrCGS ⟨Awit, Mat.mk0 0 0, Mat.mk0 0 0⟩).R).entry k i = Awit.entry k i)
      ∧ (∀ a b, b < a → (qrCGS ⟨Awit, Mat.mk0 0 0, Mat.mk0 0 0⟩).R.entry a b = 0)
      ∧ (∀ i j, i < Awit.cols → j < Awit.cols →
        ((qrMGS ⟨Awit, Mat.mk0 0 0, Mat.mk0 0 0⟩).Q.transpose
          * (qrMGS ⟨Awit, Mat.mk0 0 0, Mat.mk0 0 0⟩).Q).entry i j = if i = j then 1 else 0)
      ∧ (∀ k i, k < Awit.rows → i < Awit.cols →
        ((qrMGS ⟨Awit, Mat.mk0 0 0, Mat.mk0 0 0⟩).Q
          * (qrMGS ⟨Awit, Mat.mk0 0 0, Mat.mk0 0 0⟩).R).entry k i = Awit.entry k i)
      ∧ (∀ a b, b < a → (qrMGS ⟨Awit, Mat.mk0 0 0, Mat.mk0 0 0⟩).R.entry a b = 0)) := by
  have h1 : Awit.cols ≤ Awit.rows := by decide
  have h2 : ∀ i < Awit.cols, 1e-10 < cgsNorm Awit i := by
    intro i hi
    have hc : Awit.cols = 1 := rfl
    have : i = 0 := by omega
    rw [this, cgsNorm_Awit]
    norm_num
  have h3 : ∀ i < Awit.cols, 1e-10 < mgsNorm Awit i := by
    intro i hi
    have hc : Awit.cols = 1 := rfl
    have : i = 0 := by omega
    rw [this, mgsNorm_Awit]
    norm_num
  exact ⟨⟨h1, h2, h3⟩,
    gramschmidt_orthonormal_and_factorizes ⟨Awit, Mat.mk0 0 0, Mat.mk0 0 0⟩ h1 h2 h3⟩

/-- Claim C1 as stated is false: the 1×1 matrix [[1e-11]] has full column rank
and m ≥ n, yet both decompositions treat its only column as degenerate (its
norm 1e-11 is below the 1e-10 tolerance), leaving Q's column zero, so
QᵀQ differs from I₁ by 1, far beyond the 1e-8 tolerance. -/
theorem gramschmidt_tolerance_counterexample :
    Atiny.cols ≤ Atiny.rows
    ∧ (∀ c : ℝ, (∀ k < Atiny.rows, c * Atiny.entry k 0 = 0) → c = 0)
    ∧ ¬ |((qrCGS ⟨Atiny, Mat.mk0 0 0, Mat.mk0 0 0⟩)._Q.transpose
          * (qrCGS ⟨Atiny, Mat.mk0 0 0, Mat.mk0 0 0⟩)._Q).entry 0 0 - 1| ≤ 1e-8
    ∧ ¬ |((qrMGS ⟨Atiny, Mat.mk0 0 0, Mat.mk0 0 0⟩)._Q.transpose
          * (qrMGS ⟨Atiny, Mat.mk0 0 0, Mat.mk0 0 0⟩)._Q).entry 0 0 - 1| ≤ 1e-8 := by
  refine ⟨by decide, ?_, ?_, ?_⟩
  · intro c h
    have h0 := h 0 (by decide)
    have he : Atiny.entry 0 0 = 1e-11 := rfl
    rw [he] at h0
    rcases mul_eq_zero.mp h0 with hc | hc
    · exact hc
    · exact absurd hc (by norm_num)
  · rw [qrCGS_Atiny_QtQ]
    rw [show ((0:ℝ) - 1) = -1 by norm_num, abs_neg, abs_one]
    norm_num
  · rw [qrMGS_Atiny_QtQ]
    rw [show ((0:ℝ) - 1) = -1 by norm_num, abs_neg, abs_one]
    norm_num

theorem cgsNorm_Adup0 : cgsNorm Adup 0 = 1 := by
  have hu : cgsU Adup 0 = fun k => if k = 0 then (1:ℝ) else 0 := by
    rw [cgsU_eq Adup 0 (Nat.zero_le _)]
    funext k
    simp [Mat.getCol_eq, Adup]
  unfold cgsNorm
  rw [hu]
  have e1 : dot Adup.rows (fun k => if k = 0 then (1:ℝ) else 0)
      (fun k => if k = 0 then (1:ℝ) else 0) = 1 := by
    show ∑ k in range 2, _ = (1:ℝ)
    rw [Finset.sum_range_succ, Finset.sum_range_one]
    norm_num
  rw [e1, Real.sqrt_one]

theorem mgsNorm_Adup0 : mgsNorm Adup 0 = 1 := by
  unfold mgsNorm
  have e0 : (mgsIter Adup 0).2 0 = Adup.getCol 0 := rfl
  rw [e0]
  have e1 : dot Adup.rows (Adup.getCol 0) (Adup.getCol 0) = 1 := by
    show ∑ k in range 2, _ = (1:ℝ)
    rw [Finset.sum_range_succ, Finset.sum_range_one]
    simp [Mat.getCol_eq, Adup]
  rw [e1, Real.sqrt_one]

/-- Claim C3 (amended): for every input matrix, column index `i < min(m,n)`
whose column is a linear combination of the preceding columns, PROVIDED every
preceding column's residual norm exceeded the 1e-10 tolerance, both
decompositions compute a zero residual for column `i`, leave `R(i,i) = 0` and
`Q`'s column `i` as the zero vector, and (being total functions) raise no
fault.  The proviso is forced: a degenerate earlier column can leave a
dependent column with a non-degenerate residual (see the counterexample). -/
theorem dependent_column_zeroed (s : QR) (i : ℕ) (hi : i < min s._A.rows s._A.cols)
    (Hc : ∀ j < i, 1e-10 < cgsNorm s._A j)
    (Hm : ∀ j < i, 1e-10 < mgsNorm s._A j)
    (c : ℕ → ℝ)
    (hdep : ∀ k < s._A.rows, s._A.entry k i = ∑ j in range i, c j * s._A.entry k j) :
    ((qrCGS s).R.entry i i = 0 ∧ ∀ k, (qrCGS s).Q.entry k i = 0)
    ∧ ((qrMGS s).R.entry i i = 0 ∧ ∀ k, (qrMGS s).Q.entry k i = 0) :=
  ⟨cgsFinal_dependent s._A i hi Hc c hdep, mgsFinal_dependent s._A i hi Hm c hdep⟩

theorem dependent_column_zeroed_witness :
    ((1 < min Adup.rows Adup.cols)
      ∧ (∀ j < 1, 1e-10 < cgsNorm Adup j)
      ∧ (∀ j < 1, 1e-10 < mgsNorm Adup j)
      ∧ (∀ k < Adup.rows, Adup.entry k 1 = ∑ j in range 1, (1:ℝ) * Adup.entry k j))
    ∧ (((qrCGS ⟨Adup, Mat.mk0 0 0, Mat.mk0 0 0⟩).R.entry 1 1 = 0
        ∧ ∀ k, (qrCGS ⟨Adup, Mat.mk0 0 0, Mat.mk0 0 0⟩).Q.entry k 1 = 0)
      ∧ ((qrMGS ⟨Adup, Mat.mk0 0 0, Mat.mk0 0 0⟩).R.entry 1 1 = 0
        ∧ ∀ k, (qrMGS ⟨Adup, Mat.mk0 0 0, Mat.mk0 0 0⟩).Q.entry k 1 = 0)) := by
  have hi : 1 < min Adup.rows Adup.cols := by decide
  have hc : ∀ j < 1, 1e-10 < cgsNorm Adup j := by
    intro j hj
    have : j = 0 := by omega
    rw [this, cgsNorm_Adup0]
    norm_num
  have hm : ∀ j < 1, 1e-10 < mgsNorm Adup j := by
    intro j hj
    have : j = 0 := by omega
    rw [this, mgsNorm_Adup0]
    norm_num
  have hdep : ∀ k < Adup.rows, Adup.entry k 1 = ∑ j in range 1, (1:ℝ) * Adup.entry k j := by
    intro k hk
    rw [Finset.sum_range_one, one_mul]
    rfl
  exact ⟨⟨hi, hc, hm, hdep⟩,
    dependent_column_zeroed ⟨Adup, Mat.mk0 0 0, Mat.mk0 0 0⟩ 1 hi hc hm (fun _ => 1) hdep⟩

theorem cgsNorm_Amix0 : cgsNorm Amix 0 = 1e-11 := by
  have hu : cgsU Amix 0 = fun k => if k = 0 then (1e-11:ℝ) else 0 := by
    rw [cgsU_eq Amix 0 (Nat.zero_le _)]
    funext k
    simp [Mat.getCol_eq, Amix]
  unfold cgsNorm
  rw [hu]
  have e1 : dot Amix.rows (fun k => if k = 0 then (1e-11:ℝ) else 0)
      (fun k => if k = 0 then (1e-11:ℝ) else 0) = 1e-11 * 1e-11 := by
    show ∑ k in range 2, _ = (1e-11:ℝ) * 1e-11
    rw [Finset.sum_range_succ, Finset.sum_range_one]
    norm_num
  rw [e1]
  exact Real.sqrt_mul_self (by norm_num)

theorem cgsIter_Amix_one :
    cgsIter Amix 1
      = ((cgsIter Amix 0).1,
         (cgsInner Amix.rows (min Amix.rows Amix.cols) (cgsIter Amix 0).1
            (Amix.getCol 0) 0 (cgsIter Amix 0).2).2.set 0 0 0) := by
  rw [cgsIter_succ]
  exact cgsStep_eq_neg Amix (min Amix.rows Amix.cols) 0 (cgsIter Amix 0) (by decide)
    (by show ¬ (1e-10:ℝ) < cgsNorm Amix 0; rw [cgsNorm_Amix0]; norm_num)

theorem cgsIter_Amix_one_Q : (cgsIter Amix 1).1 = (cgsIter Amix 0).1 := by
  rw [cgsIter_Amix_one]

theorem cgsNorm_Amix1 : cgsNorm Amix 1 = 1 := by
  have hz : ∀ k, (cgsIter Amix 1).1.getCol 0 k = 0 := by
    intro k
    rw [Mat.getCol_eq]
    rw [show (cgsIter Amix 1).1.entry k 0 = (cgsIter Amix 0).1.entry k 0 from
      by rw [cgsIter_Amix_one_Q]]
    rfl
  have hu : ∀ k, cgsU Amix 1 k = Amix.getCol 1 k := by
    intro k
    rw [show cgsU Amix 1 = fun k => Amix.getCol 1 k - ∑ j in range 1,
        dot Amix.rows (Amix.getCol 1) ((cgsIter Amix 1).1.getCol j)
          * (cgsIter Amix 1).1.getCol j k from cgsU_eq Amix 1 (by decide)]
    show Amix.getCol 1 k - ∑ j in range 1,
        dot Amix.rows (Amix.getCol 1) ((cgsIter Amix 1).1.getCol j)
          * (cgsIter Amix 1).1.getCol j k = Amix.getCol 1 k
    rw [Finset.sum_range_one, hz k, mul_zero, sub_zero]
  unfold cgsNorm
  have e1 : dot Amix.rows (cgsU Amix 1) (cgsU Amix 1)
      = dot Amix.rows (Amix.getCol 1) (Amix.getCol 1) := by
    rw [dot_congr_left Amix.rows _ (fun k _ => hu k),
      dot_congr_right Amix.rows _ (fun k _ => hu k)]
  rw [e1]
  have e2 : dot Amix.rows (Amix.getCol 1) (Amix.getCol 1) = 1 := by
    show ∑ k in range 2, _ = (1:ℝ)
    rw [Finset.sum_range_succ, Finset.sum_range_one]
    simp [Mat.getCol_eq, Amix]
  rw [e2, Real.sqrt_one]

theorem cgsIter_Amix_two :
    cgsIter Amix 2
      = ((cgsIter Amix 1).1.setCol (fun k => cgsU Amix 1 k / cgsNorm Amix 1) 1,
         (cgsInner Amix.rows (min Amix.rows Amix.cols) (cgsIter Amix 1).1
            (Amix.getCol 1) 1 (cgsIter Amix 1).2).2.set 1 1 (cgsNorm Amix 1)) := by
  rw [cgsIter_succ]
  exact cgsStep_eq_pos Amix (min Amix.rows Amix.cols) 1 (cgsIter Amix 1) (by decide)
    (by show (1e-10:ℝ) < cgsNorm Amix 1; rw [cgsNorm_Amix1]; norm_num)

theorem qrCGS_Amix_R11 : (qrCGS ⟨Amix, Mat.mk0 0 0, Mat.mk0 0 0⟩)._R.entry 1 1 = 1 := by
  show (cgsIter Amix 2).2.entry 1 1 = 1
  rw [cgsIter_Amix_two, Mat.set_entry_same, cgsNorm_Amix1]

theorem qrCGS_Amix_Q01 : (qrCGS ⟨Amix, Mat.mk0 0 0, Mat.mk0 0 0⟩)._Q.entry 0 1 = 1 := by
  show (cgsIter Amix 2).1.entry 0 1 = 1
  rw [cgsIter_Amix_two, Mat.setCol_entry,
    if_pos ⟨rfl, by rw [(cgsIter_dims Amix 1).1]; decide⟩]
  have e1 : cgsU Amix 1 0 = 1 := by
    have hz : ∀ k, (cgsIter Amix 1).1.getCol 0 k = 0 := by
      intro k
      rw [Mat.getCol_eq]
      rw [show (cgsIter Amix 1).1.entry k 0 = (cgsIter Amix 0).1.entry k 0 from
        by rw [cgsIter_Amix_one_Q]]
      rfl
    rw [show cgsU Amix 1 = fun k => Amix.getCol 1 k - ∑ j in range 1,
        dot Amix.rows (Amix.getCol 1) ((cgsIter Amix 1).1.getCol j)
          * (cgsIter Amix 1).1.getCol j k from cgsU_eq Amix 1 (by decide)]
    show Amix.getCol 1 0 - ∑ j in range 1,
        dot Amix.rows (Amix.getCol 1) ((cgsIter Amix 1).1.getCol j)
          * (cgsIter Amix 1).1.getCol j 0 = 1
    rw [Finset.sum_range_one, hz 0, mul_zero, sub_zero]
    rfl
  rw [e1, cgsNorm_Amix1]
  norm_num

theorem mgsNorm_Amix0 : mgsNorm Amix 0 = 1e-11 := by
  unfold mgsNorm
  have e0 : (mgsIter Amix 0).2 0 = Amix.getCol 0 := rfl
  rw [e0]
  have e1 : dot Amix.rows (Amix.getCol 0) (Amix.getCol 0) = 1e-11 * 1e-11 := by
    show ∑ k in range 2, _ = (1e-11:ℝ) * 1e-11
    rw [Finset.sum_range_succ, Finset.sum_range_one]
    simp [Mat.getCol_eq, Amix]
  rw [e1]
  exact Real.sqrt_mul_self (by norm_num)

theorem mgsIter_Amix_one :
    mgsIter Amix 1
      = (((mgsIter Amix 0).1.1.setCol (fun _ => 0) 0,
          forLoop (fun x (Rm : Mat) => Rm.set 0 (0 + 1 + x) 0) (Amix.cols - (0 + 1))
            ((mgsIter Amix 0).1.2.set 0 0 (mgsNorm Amix 0))),
         (mgsIter Amix 0).2) := by
  rw [mgsIter_succ]
  exact mgsStep_eq_neg Amix.rows Amix.cols 0 (mgsIter Amix 0)
    (by show ¬ (1e-10:ℝ) < mgsNorm Amix 0; rw [mgsNorm_Amix0]; norm_num)

theorem mgsIter_Amix_one_V : (mgsIter Amix 1).2 = (mgsIter Amix 0).2 := by
  rw [mgsIter_Amix_one]

theorem mgsNorm_Amix1 : mgsNorm Amix 1 = 1 := by
  unfold mgsNorm
  rw [mgsIter_Amix_one_V]
  have e0 : (mgsIter Amix 0).2 1 = Amix.getCol 1 := rfl
  rw [e0]
  have e1 : dot Amix.rows (Amix.getCol 1) (Amix.getCol 1) = 1 := by
    show ∑ k in range 2, _ = (1:ℝ)
    rw [Finset.sum_range_succ, Finset.sum_range_one]
    simp [Mat.getCol_eq, Amix]
  rw [e1, Real.sqrt_one]

theorem mgsIter_Amix_two :
    mgsIter Amix 2
      = (((mgsIter Amix 1).1.1.setCol
            (fun l => (mgsIter Amix 1).2 1 l / mgsNorm Amix 1) 1,
          (forLoop (fun x => mgsInnerStep Amix.rows
              (fun l => (mgsIter Amix 1).2 1 l / mgsNorm Amix 1) 1 (1 + 1 + x))
            (Amix.cols - (1 + 1))
            ((mgsIter Amix 1).1.2.set 1 1 (mgsNorm Amix 1), (mgsIter Amix 1).2)).1),
         (forLoop (fun x => mgsInnerStep Amix.rows
              (fun l => (mgsIter Amix 1).2 1 l / mgsNorm Amix 1) 1 (1 + 1 + x))
            (Amix.cols - (1 + 1))
            ((mgsIter Amix 1).1.2.set 1 1 (mgsNorm Amix 1), (mgsIter Amix 1).2)).2) := by
  rw [mgsIter_succ]
  exact mgsStep_eq_pos Amix.rows Amix.cols 1 (mgsIter Amix 1)
    (by show (1e-10:ℝ) < mgsNorm Amix 1; rw [mgsNorm_Amix1]; norm_num)

theorem qrMGS_Amix_R11 : (qrMGS ⟨Amix, Mat.mk0 0 0, Mat.mk0 0 0⟩)._R.entry 1 1 = 1 := by
  show (mgsIter Amix 2).1.2.entry 1 1 = 1
  rw [mgsIter_Amix_two]
  show ((mgsIter Amix 1).1.2.set 1 1 (mgsNorm Amix 1)).entry 1 1 = 1
  rw [Mat.set_entry_same, mgsNorm_Amix1]

/-- Claim C3 as stated is false: in the 2×2 matrix with columns (1e-11, 0) and
(1, 0) the second column is linearly dependent on the first (it is 1e11 times
it), yet both decompositions leave `R(1,1) = 1` (not 0) and a nonzero second
`Q` column, because the first column was itself below the 1e-10 tolerance and
contributed nothing to orthogonalize against. -/
theorem dependent_column_counterexample :
    (∀ k < Amix.rows, Amix.entry k 1 = ∑ j in range 1, (1e11:ℝ) * Amix.entry k j)
    ∧ (qrCGS ⟨Amix, Mat.mk0 0 0, Mat.mk0 0 0⟩)._R.entry 1 1 = 1
    ∧ (qrCGS ⟨Amix, Mat.mk0 0 0, Mat.mk0 0 0⟩)._Q.entry 0 1 = 1
    ∧ (qrMGS ⟨Amix, Mat.mk0 0 0, Mat.mk0 0 0⟩)._R.entry 1 1 = 1 := by
  refine ⟨?_, qrCGS_Amix_R11, qrCGS_Amix_Q01, qrMGS_Amix_R11⟩
  intro k hk
  rw [Finset.sum_range_one]
  have hrows : Amix.rows = 2 := rfl
  rw [hrows] at hk
  interval_cases k
  · show (1:ℝ) = 1e11 * 1e-11
    norm_num
  · show (0:ℝ) = 1e11 * 0
    norm_num

theorem qrCGS_Awit_QtAwit :
    ((qrCGS ⟨Awit, Mat.mk0 0 0, Mat.mk0 0 0⟩)._Q.transpose * Awit).entry 0 0 = 2 := by
  have e1 : ((qrCGS ⟨Awit, Mat.mk0 0 0, Mat.mk0 0 0⟩)._Q.transpose * Awit).entry 0 0
      = ∑ k in range (cgsIter Awit 1).1.rows,
          (cgsIter Awit 1).1.entry k 0 * Awit.entry k 0 := rfl
  rw [e1, (cgsIter_dims Awit 1).1, show Awit.rows = 1 from rfl, Finset.sum_range_one,
    show (cgsIter Awit 1).1.entry 0 0 = 1 from qrCGS_Awit_Q00]
  show (1:ℝ) * 2 = 2
  norm_num

/-- Claim C2: the spec is right and the code is wrong.  `QR::solve` claims (in
its own comment) to solve `R·x = Qᵗ·b` by back-substitution, but the statement
`Matrix<> x = (R().inverse(), Qt_b);` is a C++ comma expression: the inverse
is computed and discarded and `x = Qᵗ·b` is returned.  On the decomposed 1×1
system A = [[2]] with b = [[2]] the code returns x = 2, which does not
minimize ‖A·x − b‖ (the exact solution x = 1 gives residual 0, while the
returned value gives |2·2 − 2| = 2). -/
theorem solve_returns_Qt_b_not_least_squares :
    ∃ X : Mat, (qrCGS ⟨Awit, Mat.mk0 0 0, Mat.mk0 0 0⟩).solve Awit = .ok X
      ∧ X.entry 0 0 = 2
      ∧ (qrCGS ⟨Awit, Mat.mk0 0 0, Mat.mk0 0 0⟩)._A.entry 0 0 * X.entry 0 0
          ≠ Awit.entry 0 0
      ∧ (qrCGS ⟨Awit, Mat.mk0 0 0, Mat.mk0 0 0⟩)._A.entry 0 0 * 1 = Awit.entry 0 0 := by
  have hsq : (qrCGS ⟨Awit, Mat.mk0 0 0, Mat.mk0 0 0⟩)._R.rows
      = (qrCGS ⟨Awit, Mat.mk0 0 0, Mat.mk0 0 0⟩)._R.cols := by
    show (cgsIter Awit 1).2.rows = (cgsIter Awit 1).2.cols
    rw [(cgsIter_dims Awit 1).2.2.1, (cgsIter_dims Awit 1).2.2.2]
    decide
  have hut : ∀ a b, b < a → (qrCGS ⟨Awit, Mat.mk0 0 0, Mat.mk0 0 0⟩)._R.entry a b = 0 := by
    intro a b hab
    rw [qrCGS_Awit_R_entry, if_neg (by omega)]
  have hd : ∀ a, a < (qrCGS ⟨Awit, Mat.mk0 0 0, Mat.mk0 0 0⟩)._R.rows →
      0 < (qrCGS ⟨Awit, Mat.mk0 0 0, Mat.mk0 0 0⟩)._R.entry a a := by
    intro a ha
    have hr : (qrCGS ⟨Awit, Mat.mk0 0 0, Mat.mk0 0 0⟩)._R.rows = 1 := by
      show (cgsIter Awit 1).2.rows = 1
      rw [(cgsIter_dims Awit 1).2.2.1]
      rfl
    rw [hr] at ha
    have : a = 0 := by omega
    rw [this, qrCGS_Awit_R_entry, if_pos ⟨rfl, rfl⟩]
    norm_num
  obtain ⟨Minv, hinv, _, _, _⟩ :=
    Mat.inverse_triangular (qrCGS ⟨Awit, Mat.mk0 0 0, Mat.mk0 0 0⟩)._R hsq hut hd
  refine ⟨(qrCGS ⟨Awit, Mat.mk0 0 0, Mat.mk0 0 0⟩)._Q.transpose * Awit, ?_, ?_, ?_, ?_⟩
  · show ((qrCGS ⟨Awit, Mat.mk0 0 0, Mat.mk0 0 0⟩)._R.inverse).map
      (fun _ => (qrCGS ⟨Awit, Mat.mk0 0 0, Mat.mk0 0 0⟩)._Q.transpose * Awit)
      = .ok ((qrCGS ⟨Awit, Mat.mk0 0 0, Mat.mk0 0 0⟩)._Q.transpose * Awit)
    rw [hinv]
    rfl
  · exact qrCGS_Awit_QtAwit
  · rw [qrCGS_Awit_QtAwit]
    show ¬ (2:ℝ) * 2 = 2
    norm_num
  · show (2:ℝ) * 1 = 2
    norm_num

/-- Claim C4: for a QR state whose `_R` factor is square upper triangular with
nonnegative diagonal (as the decompositions produce), `pseudoInverse` adds
`1e-8 · I` to `_R`, successfully inverts the regularized factor (no fault, even
when `_R` itself is singular), and returns that inverse times `_Qᵗ`. -/
theorem pseudoInverse_regularized_no_fault (s : QR) (hsq : s._R.rows = s._R.cols)
    (hut : ∀ a b, b < a → s._R.entry a b = 0)
    (hd : ∀ a, 0 ≤ s._R.entry a a) :
    ∃ Rinv : Mat, (s._R + Mat.identity s._R.rows * (1e-8:ℝ)).inverse = .ok Rinv ∧
      s.pseudoInverse = .ok (Rinv * s._Q.transpose) ∧
      ∀ i j, i < s._R.rows → j < s._R.rows →
        ((s._R + Mat.identity s._R.rows * (1e-8:ℝ)) * Rinv).entry i j
          = if i = j then 1 else 0 :=
  pseudoInverse_spec s hsq hut hd

theorem pseudoInverse_regularized_no_fault_witness :
    ((Mat.mk0 1 1 : Mat).rows = (Mat.mk0 1 1 : Mat).cols
      ∧ (∀ a b, b < a → (Mat.mk0 1 1 : Mat).entry a b = 0)
      ∧ (∀ a, 0 ≤ (Mat.mk0 1 1 : Mat).entry a a))
    ∧ (∃ Rinv : Mat,
        ((Mat.mk0 1 1 : Mat) + Mat.identity (Mat.mk0 1 1 : Mat).rows * (1e-8:ℝ)).inverse
          = .ok Rinv ∧
        QR.pseudoInverse ⟨Mat.mk0 1 1, Mat.mk0 1 1, Mat.mk0 1 1⟩
          = .ok (Rinv * (Mat.mk0 1 1 : Mat).transpose) ∧
        ∀ i j, i < (Mat.mk0 1 1 : Mat).rows → j < (Mat.mk0 1 1 : Mat).rows →
          (((Mat.mk0 1 1 : Mat) + Mat.identity (Mat.mk0 1 1 : Mat).rows * (1e-8:ℝ))
              * Rinv).entry i j = if i = j then 1 else 0) :=
  ⟨⟨rfl, fun a b _ => rfl, fun a => le_refl 0⟩,
    pseudoInverse_regularized_no_fault ⟨Mat.mk0 1 1, Mat.mk0 1 1, Mat.mk0 1 1⟩ rfl
      (fun a b _ => rfl) (fun a => le_refl 0)⟩

theorem cgsNorm_zero11 : cgsNorm (Mat.mk0 1 1) 0 = 0 := cgsNorm_one_const 0 (le_refl 0)

theorem qrCGS_zero11_R00 :
    (qrCGS ⟨Mat.mk0 1 1, Mat.mk0 0 0, Mat.mk0 0 0⟩)._R.entry 0 0 = 0 := by
  have hstep : cgsIter (Mat.mk0 1 1) 1
      = ((cgsIter (Mat.mk0 1 1) 0).1,
         (cgsInner (Mat.mk0 1 1).rows (min (Mat.mk0 1 1).rows (Mat.mk0 1 1).cols)
            (cgsIter (Mat.mk0 1 1) 0).1 ((Mat.mk0 1 1).getCol 0) 0
            (cgsIter (Mat.mk0 1 1) 0).2).2.set 0 0 0) := by
    rw [cgsIter_succ]
    exact cgsStep_eq_neg (Mat.mk0 1 1) (min (Mat.mk0 1 1).rows (Mat.mk0 1 1).cols) 0
      (cgsIter (Mat.mk0 1 1) 0) (by decide)
      (by show ¬ (1e-10:ℝ) < cgsNorm (Mat.mk0 1 1) 0; rw [cgsNorm_zero11]; norm_num)
  show (cgsIter (Mat.mk0 1 1) 1).2.entry 0 0 = 0
  rw [hstep, Mat.set_entry_same]

/-- Claim C5 (amended): constructing a QR decomposition from a matrix with
zero rows or zero columns fails with a RUNTIME-ERROR-class error (the source
throws `std::runtime_error`, not `std::invalid_argument`); construction from
any matrix with at least one row and one column succeeds and stores the
matrix; in particular construction from the 1×1 zero matrix succeeds and the
subsequent (default, classical Gram-Schmidt) decomposition yields
`R(0,0) = 0`. -/
theorem constructor_validation :
    (∀ M : Mat, M.rows < 1 ∨ M.cols < 1 →
      QR.mkQR M = .error (.runtimeError ("Matrix should be: rows > 0 && cols > 0")))
    ∧ (∀ M : Mat, 1 ≤ M.rows → 1 ≤ M.cols →
      QR.mkQR M = .ok ⟨M, Mat.mk0 0 0, Mat.mk0 0 0⟩)
    ∧ QR.mkQR (Mat.mk0 1 1) = .ok ⟨Mat.mk0 1 1, Mat.mk0 0 0, Mat.mk0 0 0⟩
    ∧ (qr ⟨Mat.mk0 1 1, Mat.mk0 0 0, Mat.mk0 0 0⟩)._R.entry 0 0 = 0 := by
  refine ⟨?_, ?_, rfl, qrCGS_zero11_R00⟩
  · intro M h
    unfold QR.mkQR
    rw [if_pos h]
  · intro M h1 h2
    unfold QR.mkQR
    rw [if_neg (by omega)]

theorem constructor_validation_witness :
    ((Mat.mk0 0 3 : Mat).rows < 1 ∨ (Mat.mk0 0 3 : Mat).cols < 1)
    ∧ QR.mkQR (Mat.mk0 0 3)
        = .error (.runtimeError ("Matrix should be: rows > 0 && cols > 0")) :=
  ⟨Or.inl (by decide), constructor_validation.1 (Mat.mk0 0 3) (Or.inl (by decide))⟩

/-- Claim C5 as stated is false on the error class: construction from a 0×3
matrix fails with a runtime-error-class error (`std::runtime_error`), never an
invalid-argument-class one. -/
theorem constructor_error_class_counterexample :
    QR.mkQR (Mat.mk0 0 3)
      = .error (.runtimeError ("Matrix should be: rows > 0 && cols > 0"))
    ∧ ∀ msg, QR.mkQR (Mat.mk0 0 3) ≠ .error (.invalidArgument msg) := by
  constructor
  · rfl
  · intro msg h
    have h1 : (Except.error (CppError.runtimeError ("Matrix should be: rows > 0 && cols > 0"))
        : Except CppError QR) = .error (.invalidArgument msg) := by
      rw [← h]
      rfl
    simp at h1

/-- Claim C6: for every Constraint Residual whose owned expression references
only unknowns from its dependency list, and every unknown `u` not among
`getVariables()`, the expression returned by `derivative(u)` evaluates to 0
for arbitrary values of all unknowns.  (The expression hierarchy is modelled
from the spec; `Function.h` is not among the inspected sources.) -/
theorem derivative_absent_unknown_zero (E : ErrorFunctions) (hwf : E.wf) (u : ℕ)
    (hu : u ∉ E.getVariables) (rho : ℕ → ℝ) :
    (E.derivative u).evalE rho = 0 :=
  derivative_absent_eval_zero u E.c_f (fun h => hu (hwf u h)) rho

theorem derivative_absent_unknown_zero_witness :
    ((PointPointDistanceError 0 1 2 3 5).wf
      ∧ 7 ∉ (PointPointDistanceError 0 1 2 3 5).getVariables)
    ∧ ((PointPointDistanceError 0 1 2 3 5).derivative 7).evalE (fun _ => 1) = 0 := by
  have hwf : (PointPointDistanceError 0 1 2 3 5).wf := by
    intro v hv
    simp [PointPointDistanceError, Expr.vars] at hv
    simp [PointPointDistanceError, ErrorFunctions.getVariables]
    omega
  have hu : 7 ∉ (PointPointDistanceError 0 1 2 3 5).getVariables := by
    simp [PointPointDistanceError, ErrorFunctions.getVariables]
  exact ⟨⟨hwf, hu⟩,
    derivative_absent_unknown_zero (PointPointDistanceError 0 1 2 3 5) hwf 7 hu (fun _ => 1)⟩

/-- Claim C7: `clone()` on any Constraint Residual always throws the
`std::runtime_error("Not implemented")` fault and never returns a copy. -/
theorem clone_not_implemented :
    ∀ E : ErrorFunctions, E.clone = .error (.runtimeError ("Not implemented"))
      ∧ ∀ E' : ErrorFunctions, E.clone ≠ .ok E' :=
  fun E => ⟨rfl, fun E' h => by simp [ErrorFunctions.clone] at h⟩

/-- Claim C8: the spec's intent is right and the code is wrong.  The six
unimplemented strategies (`qrIGS`, `qrBGS`, `qrRGS`, `qrCGSP`,
`qrHouseholder`, `qrGivens`) have EMPTY bodies: invoking any of them is a
silent no-op that leaves the whole object (including `_Q` and `_R`)
unchanged and surfaces no fault at all, contrary to the required
"unsupported strategy" error. -/
theorem unimplemented_strategies_silent_noop :
    ∀ s : QR, qrIGS s = s ∧ qrBGS s = s ∧ qrRGS s = s ∧ qrCGSP s = s
      ∧ qrHouseholder s = s ∧ qrGivens s = s :=
  fun s => ⟨rfl, rfl, rfl, rfl, rfl, rfl⟩

/-- Claim C9: `PointPointDistanceError` over P1(x1,y1), P2(x2,y2) and target d
evaluates to `sqrt((x2−x1)² + (y2−y1)²) − d`; with target 1 and points (0,0),
(3,4) it evaluates to 4, and `PointOnPointError` on coincident points (2,2),
(2,2) evaluates to 0.  (The constructors are modelled from the spec; their
bodies are in an uninspected translation unit.) -/
theorem point_point_distance_eval :
    (∀ (x1 y1 x2 y2 : ℕ) (d : ℝ) (rho : ℕ → ℝ),
      (PointPointDistanceError x1 y1 x2 y2 d).evaluate rho
        = Real.sqrt ((rho x2 - rho x1) * (rho x2 - rho x1)
            + (rho y2 - rho y1) * (rho y2 - rho y1)) - d)
    ∧ (PointPointDistanceError 0 1 2 3 1).evaluate
        (fun v => if v = 2 then 3 else if v = 3 then 4 else 0) = 4
    ∧ (PointOnPointError 0 1 2 3).evaluate (fun _ => 2) = 0 := by
  refine ⟨fun x1 y1 x2 y2 d rho => rfl, ?_, ?_⟩
  · show Real.sqrt (((3:ℝ) - 0) * ((3:ℝ) - 0) + ((4:ℝ) - 0) * ((4:ℝ) - 0)) - 1 = 4
    rw [show ((3:ℝ) - 0) * ((3:ℝ) - 0) + ((4:ℝ) - 0) * ((4:ℝ) - 0) = 5 * 5 by norm_num,
      Real.sqrt_mul_self (by norm_num : (0:ℝ) ≤ 5)]
    norm_num
  · show Real.sqrt (((2:ℝ) - 2) * ((2:ℝ) - 2) + ((2:ℝ) - 2) * ((2:ℝ) - 2)) - 0 = 0
    rw [show ((2:ℝ) - 2) * ((2:ℝ) - 2) + ((2:ℝ) - 2) * ((2:ℝ) - 2) = 0 by norm_num,
      Real.sqrt_zero]
    norm_num

/-- Claim C10: no operation after construction modifies the stored matrix
`_A`: every decomposition method writes only `_Q` and `_R` (in the embedding,
leaves `_A` equal), `solve` and `pseudoInverse` are pure functions of the
state (they return values, never a new state), and the accessor `A()` returns
the matrix supplied at construction after any sequence of decomposition
calls. -/
theorem decompositions_preserve_A :
    (∀ s : QR, (qrCGS s)._A = s._A ∧ (qrMGS s)._A = s._A ∧ (qrIGS s)._A = s._A
      ∧ (qrBGS s)._A = s._A ∧ (qrRGS s)._A = s._A ∧ (qrCGSP s)._A = s._A
      ∧ (qrHouseholder s)._A = s._A ∧ (qrGivens s)._A = s._A ∧ QR.A s = s._A)
    ∧ (∀ (M : Mat) (s : QR), QR.mkQR M = .ok s →
        ∀ ops : List DecompOp, QR.A (ops.foldl (fun st op => applyOp op st) s) = M) := by
  constructor
  · exact fun s => ⟨rfl, rfl, rfl, rfl, rfl, rfl, rfl, rfl, rfl⟩
  · intro M s h ops
    have hA : s._A = M := by
      unfold QR.mkQR at h
      by_cases hc : M.rows < 1 ∨ M.cols < 1
      · rw [if_pos hc] at h
        cases h
      · rw [if_neg hc] at h
        cases h
        rfl
    have hstep : ∀ (op : DecompOp) (st : QR), (applyOp op st)._A = st._A := by
      intro op st
      cases op <;> rfl
    have hfold : ∀ (l : List DecompOp) (st : QR),
        (l.foldl (fun st op => applyOp op st) st)._A = st._A := by
      intro l
      induction l with
      | nil => intro st; rfl
      | cons op l ih =>
        intro st
        rw [List.foldl_cons, ih, hstep]
    show (ops.foldl (fun st op => applyOp op st) s)._A = M
    rw [hfold, hA]

theorem decompositions_preserve_A_witness :
    QR.mkQR Awit = .ok ⟨Awit, Mat.mk0 0 0, Mat.mk0 0 0⟩
    ∧ QR.A ([DecompOp.cgs].foldl (fun st op => applyOp op st)
        ⟨Awit, Mat.mk0 0 0, Mat.mk0 0 0⟩) = Awit :=
  ⟨rfl, decompositions_preserve_A.2 Awit ⟨Awit, Mat.mk0 0 0, Mat.mk0 0 0⟩ rfl
    [DecompOp.cgs]⟩
